import Mathlib

/-!
# Split-complex fast convolution kernel (`zfconvm_f.c`)

A shallow embedding of the three entry points of the SPU plugin
`src/vsip/opt/cbe/spu/plugins/zfconvm_f.c`:

* `input`  (lines 28-51): declares the four input transfers of one iteration,
* `output` (lines 53-72): declares the two output transfers of one iteration,
* `kernel` (lines 74-125): FFT-plan cache check, optional forward transform of
  the coefficient planes, forward transform of the data planes, pointwise
  complex product, inverse transform and scaling by `1/n`.

Floats are modelled by an arbitrary field `K` of characteristic zero (exact
arithmetic); the SPU local store is a function from float offsets to `K`;
`unsigned int` and 64-bit effective-address arithmetic wraps explicitly.
The CML routines called by `kernel` live outside the file and are modelled as
the exact unnormalised discrete Fourier transform over the twiddle factor that
the library tabulates for a given length. The scratch area `fft_buf` carries
nothing from one call to the next and is left out of the state.
-/

set_option linter.unusedSectionVars false

namespace Fconv

/-! ## Split-complex numbers over the float model -/

/-- One complex sample held as a float of the real plane and a float of the
imaginary plane. -/
@[ext]
structure Cplx (K : Type) where
  re : K
  im : K
deriving DecidableEq

namespace Cplx

variable {K : Type} [Field K]

instance : Zero (Cplx K) := ⟨⟨0, 0⟩⟩
instance : One (Cplx K) := ⟨⟨1, 0⟩⟩
instance : Add (Cplx K) := ⟨fun a b => ⟨a.re + b.re, a.im + b.im⟩⟩
instance : Neg (Cplx K) := ⟨fun a => ⟨-a.re, -a.im⟩⟩
/-- The product `(a+bi)(c+di) = (ac-bd) + (ad+bc)i`. -/
instance : Mul (Cplx K) :=
  ⟨fun a b => ⟨a.re * b.re - a.im * b.im, a.re * b.im + a.im * b.re⟩⟩

instance : CommRing (Cplx K) :=
  CommRing.ofMinimalAxioms
    (fun a b c => Cplx.ext (add_assoc a.re b.re c.re) (add_assoc a.im b.im c.im))
    (fun a => Cplx.ext (zero_add a.re) (zero_add a.im))
    (fun a => Cplx.ext (neg_add_cancel a.re) (neg_add_cancel a.im))
    (fun a b c => Cplx.ext
      (show (a.re * b.re - a.im * b.im) * c.re - (a.re * b.im + a.im * b.re) * c.im
          = a.re * (b.re * c.re - b.im * c.im) - a.im * (b.re * c.im + b.im * c.re) by ring)
      (show (a.re * b.re - a.im * b.im) * c.im + (a.re * b.im + a.im * b.re) * c.re
          = a.re * (b.re * c.im + b.im * c.re) + a.im * (b.re * c.re - b.im * c.im) by ring))
    (fun a b => Cplx.ext
      (show a.re * b.re - a.im * b.im = b.re * a.re - b.im * a.im by ring)
      (show a.re * b.im + a.im * b.re = b.re * a.im + b.im * a.re by ring))
    (fun a => Cplx.ext
      (show 1 * a.re - 0 * a.im = a.re by ring)
      (show 1 * a.im + 0 * a.re = a.im by ring))
    (fun a b c => Cplx.ext
      (show a.re * (b.re + c.re) - a.im * (b.im + c.im)
          = a.re * b.re - a.im * b.im + (a.re * c.re - a.im * c.im) by ring)
      (show a.re * (b.im + c.im) + a.im * (b.re + c.re)
          = a.re * b.im + a.im * b.re + (a.re * c.im + a.im * c.re) by ring))

/-- Complex conjugate: the sign of the imaginary plane is flipped. -/
def conj (a : Cplx K) : Cplx K := ⟨a.re, -a.im⟩

/-- A real scalar times a complex sample (both planes are scaled). -/
def rscale (s : K) (a : Cplx K) : Cplx K := ⟨s * a.re, s * a.im⟩

end Cplx

/-! ## Local store -/

/-- The local store seen through a `float*`: offsets are counted in floats. -/
abbrev Mem (K : Type) := Nat → K

/-- Write `n` consecutive floats `v 0 .. v (n-1)` starting at offset `p`. -/
def storev {K : Type} (m : Mem K) (p n : Nat) (v : Nat → K) : Mem K :=
  fun a => if p ≤ a ∧ a < p + n then v (a - p) else m a

/-- Read sample `j` of the split-complex vector whose planes start at `re` and `im`. -/
def zload {K : Type} (m : Mem K) (re im j : Nat) : Cplx K := ⟨m (re + j), m (im + j)⟩

/-- Write the `n` samples of `v` to the planes starting at `re` and `im`. -/
def zstore {K : Type} (m : Mem K) (re im n : Nat) (v : Nat → Cplx K) : Mem K :=
  storev (storev m re n (fun j => (v j).re)) im n (fun j => (v j).im)

/-! ## The CML routines used by `kernel` -/

/-- Transform direction argument of `cml_zzfft1d_ip_f`. -/
inductive cml_fft_dir where
  | CML_FFT_FWD
  | CML_FFT_INV
deriving DecidableEq

/-- The FFT object that `cml_fft1d_setup_f` places in `fft_obj_mem`: the length
it was built for and the twiddle factor its table is generated from. -/
structure fft1d_f (K : Type) where
  n : Nat
  w : Cplx K
deriving DecidableEq

/-- The part of CML that the plugin relies on but does not contain: for which
lengths `cml_fft1d_setup_f` succeeds, and the twiddle factor it tabulates for a
length (`exp(-2 pi i / n)` in the library). -/
structure CML (K : Type) where
  supported : Nat → Bool
  twiddle : Nat → Cplx K

variable {K : Type} [Field K]

/-- Unnormalised discrete Fourier transform of the first `n` samples of `x`
over the root `w`: `X[k] = sum_j x[j] * w^(j*k)`. -/
def dft (n : Nat) (w : Cplx K) (x : Nat → Cplx K) (k : Nat) : Cplx K :=
  ∑ j in Finset.range n, x j * w ^ (j * k)

/-- Modelled from the spec: `cml_fft1d_setup_f(&fft, CML_FFT_CC, n, fft_obj_mem)`
(CML is not part of the file). "Build a new plan (including twiddle factor
computation) ... for that exact length"; returns the status `rt` and the new
value of the `fft` pointer, `0` and null when the length is not supported. -/
def cml_fft1d_setup_f (lib : CML K) (n : Nat) : Int × Option (fft1d_f K) :=
  if lib.supported n then (1, some ⟨n, lib.twiddle n⟩) else (0, none)

/-- Modelled from the spec: `cml_zzfft1d_ip_f(fft, re, im, dir, fft_buf)`, the
in-place transform of the split-complex vector at `re`/`im` "using the plan":
the exact unnormalised DFT of the plan's length, with the conjugate twiddle for
the inverse direction. -/
def cml_zzfft1d_ip_f (fft : fft1d_f K) (re im : Nat) (dir : cml_fft_dir)
    (m : Mem K) : Mem K :=
  let w := match dir with
    | .CML_FFT_FWD => fft.w
    | .CML_FFT_INV => Cplx.conj fft.w
  zstore m re im fft.n (dft fft.n w (zload m re im))

/-- Modelled from the spec: `cml_zvmul1_f(a_re, a_im, b_re, b_im, z_re, z_im, n)`,
the pointwise complex product `z[i] = a[i] * b[i]` for `i` in `[0, n)`. -/
def cml_zvmul1_f (a_re a_im b_re b_im z_re z_im n : Nat) (m : Mem K) : Mem K :=
  zstore m z_re z_im n (fun i => zload m a_re a_im i * zload m b_re b_im i)

/-- Modelled from the spec: `cml_core_rzsvmul1_f(s, a_re, a_im, z_re, z_im, n)`,
"scale every element of the real/imag planes" by the real scalar `s`. -/
def cml_core_rzsvmul1_f (s : K) (a_re a_im z_re z_im n : Nat) (m : Mem K) : Mem K :=
  zstore m z_re z_im n (fun i => Cplx.rscale s (zload m a_re a_im i))

/-! ## Request parameters -/

/-- The fields of the request block `Fastconv_split_params` that the file
reads (its declaration, in `fconv_params.h`, is not part of the file):
`elements`, `transform_kernel` and the strides are `unsigned int` words, the
`ea_` fields are 64-bit effective addresses. -/
structure Fastconv_split_params where
  elements : Nat
  transform_kernel : Nat
  ea_kernel_re : Nat
  ea_kernel_im : Nat
  ea_input_re : Nat
  ea_input_im : Nat
  ea_output_re : Nat
  ea_output_im : Nat
  kernel_stride : Nat
  input_stride : Nat
  output_stride : Nat
deriving DecidableEq, Repr

/-! ## `kernel` -/

/-- How a call of `kernel` ends. -/
inductive Outcome where
  /-- Reached `return` with this value. -/
  | returned (rv : Int)
  /-- The assertion `fft_size <= MAX_SIZE` failed (line 90). -/
  | assert_size
  /-- The assertion `rt && fft` failed (line 105). -/
  | assert_setup
  /-- A transform was entered with the null `fft` pointer. -/
  | null_plan
deriving DecidableEq, Repr

/-- The function-local statics of `kernel` together with the local store. -/
structure KernelState (K : Type) where
  instance_id : Nat
  current_size : Nat
  fft : Option (fft1d_f K)
  mem : Mem K

/-- State at program start: `instance_id = 0`, `current_size = 0`, `fft = 0`. -/
def KernelState.init (m : Mem K) : KernelState K :=
  { instance_id := 0, current_size := 0, fft := none, mem := m }

/-- Lines 109-124 of `kernel`: the transforms, the product and the scaling, run
with the `fft` pointer as it stands after the plan check. -/
def kernel_compute (fc : Fastconv_split_params) (inout : Nat) (s : KernelState K) :
    Outcome × KernelState K :=
  let fft_size := fc.elements
  let data_re := inout
  let data_im := inout + 1 * fft_size
  let coeff_re := inout + 2 * fft_size
  let coeff_im := inout + 3 * fft_size
  match s.fft with
  | none => (.null_plan, s)
  | some fft =>
    let m1 := if fc.transform_kernel ≠ 0 then
        cml_zzfft1d_ip_f fft coeff_re coeff_im .CML_FFT_FWD s.mem
      else s.mem
    let m2 := cml_zzfft1d_ip_f fft data_re data_im .CML_FFT_FWD m1
    let m3 := cml_zvmul1_f coeff_re coeff_im data_re data_im data_re data_im fft_size m2
    let m4 := cml_zzfft1d_ip_f fft data_re data_im .CML_FFT_INV m3
    let m5 := cml_core_rzsvmul1_f (1 / (fft_size : K)) data_re data_im data_re data_im
      fft_size m4
    (.returned 0, { s with mem := m5 })

/-- The function `kernel` (lines 74-125). `MAX_SIZE` stands for the macro
`VSIP_IMPL_MAX_FCONV_SPLIT_SIZE`; `inout` is the offset of the working buffer
in the local store. -/
def kernel (lib : CML K) (MAX_SIZE : Nat) (fc : Fastconv_split_params)
    (inout iter _total : Nat) (s : KernelState K) : Outcome × KernelState K :=
  let fft_size := fc.elements
  if ¬ fft_size ≤ MAX_SIZE then (.assert_size, s)
  else if iter = 0 ∧ fft_size ≠ s.current_size then
    let r := cml_fft1d_setup_f lib fft_size
    if r.1 ≠ 0 ∧ r.2.isSome then
      kernel_compute fc inout { s with fft := r.2, current_size := fft_size }
    else (.assert_setup, { s with fft := r.2 })
  else kernel_compute fc inout s

/-! ## `input` and `output` -/

/-- Buffer kinds passed to `f_dtl_begin`. -/
inductive alf_buf_type where
  | ALF_BUF_OVL_IN
  | ALF_BUF_OVL_OUT
deriving DecidableEq, Repr

/-- Element kinds passed to `f_dtl_entry_add`. -/
inductive alf_data_type where
  | ALF_DATA_FLOAT
deriving DecidableEq, Repr

/-- The table of transfer-list callbacks `lwp_functions`, over whatever the
untyped `entries` handle denotes. -/
structure lwp_functions (E : Type) where
  f_dtl_begin : E → alf_buf_type → Nat → E
  f_dtl_entry_add : E → Nat → alf_data_type → Nat → E
  f_dtl_end : E → E

/-- Width of `unsigned int` and of `size_t` on the SPU. -/
def UINT_BITS : Nat := 32

/-- Width of `alf_data_addr64_t`. -/
def ADDR_BITS : Nat := 64

/-- The C expression `base + iter * stride * sizeof(float)`: the product is
formed in `unsigned int` / `size_t`, the sum in `alf_data_addr64_t`. -/
def plane_ea (base iter stride : Nat) : Nat :=
  (base + ((iter * stride) % 2 ^ UINT_BITS * 4) % 2 ^ UINT_BITS) % 2 ^ ADDR_BITS

/-- The function `input` (lines 28-51). -/
def input {E : Type} (pf : lwp_functions E) (fc : Fastconv_split_params) (entries : E)
    (iter _total : Nat) : Int × E :=
  let e := pf.f_dtl_begin entries .ALF_BUF_OVL_IN 0
  let ea := plane_ea fc.ea_input_re iter fc.input_stride
  let e := pf.f_dtl_entry_add e fc.elements .ALF_DATA_FLOAT ea
  let ea := plane_ea fc.ea_input_im iter fc.input_stride
  let e := pf.f_dtl_entry_add e fc.elements .ALF_DATA_FLOAT ea
  let ea := plane_ea fc.ea_kernel_re iter fc.kernel_stride
  let e := pf.f_dtl_entry_add e fc.elements .ALF_DATA_FLOAT ea
  let ea := plane_ea fc.ea_kernel_im iter fc.kernel_stride
  let e := pf.f_dtl_entry_add e fc.elements .ALF_DATA_FLOAT ea
  let e := pf.f_dtl_end e
  (0, e)

/-- The function `output` (lines 53-72). -/
def output {E : Type} (pf : lwp_functions E) (fc : Fastconv_split_params) (entries : E)
    (iter _total : Nat) : Int × E :=
  let e := pf.f_dtl_begin entries .ALF_BUF_OVL_OUT 0
  let ea := plane_ea fc.ea_output_re iter fc.output_stride
  let e := pf.f_dtl_entry_add e fc.elements .ALF_DATA_FLOAT ea
  let ea := plane_ea fc.ea_output_im iter fc.output_stride
  let e := pf.f_dtl_entry_add e fc.elements .ALF_DATA_FLOAT ea
  let e := pf.f_dtl_end e
  (0, e)

/-- One declared transfer: element count, element kind, effective address. -/
structure dtl_entry where
  size : Nat
  data_type : alf_data_type
  ea : Nat
deriving DecidableEq, Repr

/-- A transfer list under construction or finished. -/
structure dtl where
  buf_type : alf_buf_type
  offset : Nat
  entries : List dtl_entry
  ended : Bool
deriving DecidableEq, Repr

/-- Modelled from the spec: the transfer-list callbacks behind `lwp_functions`
(`lwp_kernel.h` is not part of the file). They "do not move data themselves,
they only declare the transfer": begin starts an empty list, entry_add appends
one entry, end closes the list. -/
def dtl_recorder : lwp_functions dtl where
  f_dtl_begin := fun _ bt off => ⟨bt, off, [], false⟩
  f_dtl_entry_add := fun d sz ty ea => { d with entries := d.entries ++ [⟨sz, ty, ea⟩] }
  f_dtl_end := fun d => { d with ended := true }

/-! ## Reference notions used to state the properties -/

/-- Reference circular convolution, as the spec words it:
`y[j] = sum over i of x[i] * k[(j - i) mod n]`. -/
def circular_convolution (n : Nat) (x k : Nat → Cplx K) (j : Nat) : Cplx K :=
  ∑ i in Finset.range n, x i * k ((j + n - i) % n)

/-- What makes `w` the twiddle factor of an exact length-`n` DFT: it is an
`n`-th root of unity of modulus one whose powers are orthogonal, i.e. the sum
of the `m`-th powers of `w^r` over `m < n` vanishes for every `0 < r < n`. Over
the reals this is `w = exp(-2 pi i / n)` (or any other primitive root). -/
structure IsDFTRoot (n : Nat) (w : Cplx K) : Prop where
  pow_n : w ^ n = 1
  mul_conj : w * Cplx.conj w = 1
  ortho : ∀ r, 0 < r → r < n → ∑ m in Finset.range n, (w ^ r) ^ m = 0

/-- The plan cache is consistent: either it is still in its start state, or the
stored plan is the one `cml_fft1d_setup_f` builds for `current_size`. -/
def CacheInv (lib : CML K) (s : KernelState K) : Prop :=
  (s.current_size = 0 ∧ s.fft = none) ∨
    s.fft = some ⟨s.current_size, lib.twiddle s.current_size⟩

/-- The states a run can be in: the start state, any state with the local store
rewritten by the staging layer, and the state left by any call of `kernel`
that reached its `return`. -/
inductive Reachable (lib : CML K) (MAX_SIZE : Nat) : KernelState K → Prop where
  | start (m : Mem K) : Reachable lib MAX_SIZE (KernelState.init m)
  | staged (s : KernelState K) (m : Mem K) :
      Reachable lib MAX_SIZE s → Reachable lib MAX_SIZE { s with mem := m }
  | call (s : KernelState K) (fc : Fastconv_split_params) (inout iter total : Nat)
      (rv : Int) : Reachable lib MAX_SIZE s →
      (kernel lib MAX_SIZE fc inout iter total s).1 = .returned rv →
      Reachable lib MAX_SIZE (kernel lib MAX_SIZE fc inout iter total s).2

instance (lib : CML K) (s : KernelState K) [DecidableEq K] : Decidable (CacheInv lib s) := by
  unfold CacheInv
  infer_instance

/-! ## Views of the working buffer and the batch driver -/

/-- The twiddle factor a plan uses in a given direction. -/
def dir_root (fft : fft1d_f K) (dir : cml_fft_dir) : Cplx K :=
  match dir with
  | .CML_FFT_FWD => fft.w
  | .CML_FFT_INV => Cplx.conj fft.w

/-- The input vector found in the data planes of the working buffer. -/
def data_in (fc : Fastconv_split_params) (inout : Nat) (m : Mem K) : Nat → Cplx K :=
  zload m inout (inout + fc.elements)

/-- The vector found in the coefficient planes of the working buffer. -/
def coeff_in (fc : Fastconv_split_params) (inout : Nat) (m : Mem K) : Nat → Cplx K :=
  zload m (inout + 2 * fc.elements) (inout + 3 * fc.elements)

/-- The coefficient vector the product step multiplies by: the forward
transform of the coefficient planes when the flag is set, the planes as they
are when it is clear. -/
def coeff_used (w : Cplx K) (fc : Fastconv_split_params) (inout : Nat) (m : Mem K) :
    Nat → Cplx K :=
  if fc.transform_kernel ≠ 0 then dft fc.elements w (coeff_in fc inout m)
  else coeff_in fc inout m

/-- The staging layer's effect before an iteration: fresh input samples `x` are
placed in the data planes of the working buffer. -/
def load_input (fc : Fastconv_split_params) (inout : Nat) (x : Nat → Cplx K)
    (m : Mem K) : Mem K :=
  zstore m inout (inout + fc.elements) fc.elements x

/-- A batch as the driver runs it under the transform-once discipline: for
iteration `iter`, `iter + 1`, ... the next input of the list is staged into the
data planes and `kernel` is called with `transform_kernel` set exactly on
iteration 0; the coefficient planes and the statics are whatever the previous
call left. The result of every call is recorded. -/
def run_batch (lib : CML K) (MAX_SIZE : Nat) (fc : Fastconv_split_params)
    (inout total : Nat) : Nat → List (Nat → Cplx K) → KernelState K →
    List (Outcome × KernelState K)
  | _, [], _ => []
  | iter, x :: xs, s =>
    let r := kernel lib MAX_SIZE
      { fc with transform_kernel := if iter = 0 then 1 else 0 } inout iter total
      { s with mem := load_input fc inout x s.mem }
    r :: run_batch lib MAX_SIZE fc inout total (iter + 1) xs r.2

/-- One iteration-0 call on freshly staged buffer contents `b`: the statics are
those of `s`, the local store is `b`. -/
def kernel_on (lib : CML K) (MAX_SIZE : Nat) (fc : Fastconv_split_params)
    (inout total : Nat) (s : KernelState K) (b : Mem K) : Outcome × KernelState K :=
  kernel lib MAX_SIZE fc inout 0 total { s with mem := b }

/-! ## Concrete data for the worked examples -/

/-- An exact library over the rationals: the lengths 1, 2 and 4, whose forward
twiddle factors 1, -1 and -i have rational planes. -/
def cml_rat : CML ℚ where
  supported := fun n => n == 1 || n == 2 || n == 4
  twiddle := fun n => if n = 4 then ⟨0, -1⟩ else if n = 2 then ⟨-1, 0⟩ else ⟨1, 0⟩

/-- A request of `n` elements with the given `transform_kernel` word, planes
at effective addresses 0x1000 .. 0x6000 and unit strides of `n` floats. -/
def request (n tk : Nat) : Fastconv_split_params :=
  { elements := n, transform_kernel := tk,
    ea_kernel_re := 0x1000, ea_kernel_im := 0x2000,
    ea_input_re := 0x3000, ea_input_im := 0x4000,
    ea_output_re := 0x5000, ea_output_im := 0x6000,
    kernel_stride := n, input_stride := n, output_stride := n }

/-- The working buffer of the four-element scenario: input `[1,0,0,0]` and
time-domain kernel `[1,1,0,0]`, both real, laid out from offset 0. -/
def scenario_buffer : Mem ℚ := fun a => if a = 0 ∨ a = 8 ∨ a = 9 then 1 else 0

/-- The input of the scenario as a complex vector. -/
def scenario_x : Nat → Cplx ℚ := fun j => if j = 0 then 1 else 0

/-- The kernel of the scenario as a complex vector. -/
def scenario_k : Nat → Cplx ℚ := fun j => if j = 0 ∨ j = 1 then 1 else 0

/-- A two-element working buffer: input `[3+i, 2-5i]` and the time-domain
unit impulse `[1, 0]` as kernel, laid out from offset 0. -/
def identity_buffer : Mem ℚ := fun a =>
  if a = 0 then 3 else if a = 1 then 2 else if a = 2 then 1 else if a = 3 then -5
  else if a = 4 then 1 else 0

/-- A two-element working buffer whose kernel planes hold the time-domain
kernel `[1, 1]`; the data planes are filled by the staging layer. -/
def batch_buffer : Mem ℚ := fun a => if a = 4 ∨ a = 5 then 1 else 0

/-- The kernel `[1, 1]` as a complex vector. -/
def batch_k : Nat → Cplx ℚ := fun _ => 1

/-- First input of the example batch, `[1, 0]`. -/
def batch_x0 : Nat → Cplx ℚ := fun j => if j = 0 then 1 else 0

/-- Second input of the example batch, `[2, 3]`. -/
def batch_x1 : Nat → Cplx ℚ := fun j => if j = 0 then ⟨2, 0⟩ else ⟨3, 0⟩

/-- The input `[3+i, 2-5i]` held in `identity_buffer`. -/
def identity_x : Nat → Cplx ℚ := fun j => if j = 0 then ⟨3, 1⟩ else ⟨2, -5⟩

/-- The time-domain unit impulse. -/
def unit_impulse : Nat → Cplx ℚ := fun j => if j = 0 then 1 else 0

/-- A library whose plan construction succeeds for every length. -/
def cml_lenient : CML ℚ where
  supported := fun _ => true
  twiddle := cml_rat.twiddle

/-- A request whose input-real plane sits four bytes below the top of the
64-bit effective-address space, with unit strides. -/
def wrap_request : Fastconv_split_params :=
  { elements := 4, transform_kernel := 1,
    ea_kernel_re := 0x1000, ea_kernel_im := 0x2000,
    ea_input_re := 2 ^ 64 - 4, ea_input_im := 0x4000,
    ea_output_re := 0x5000, ea_output_im := 0x6000,
    kernel_stride := 1, input_stride := 1, output_stride := 1 }

/-- An empty transfer list handed to `input` or `output`. -/
def dtl_empty : dtl := ⟨.ALF_BUF_OVL_IN, 0, [], false⟩

/-- A two-element buffer `a`: input `[1, 2]`, kernel `[1, 1]`. -/
def linear_a : Mem ℚ := fun a =>
  if a = 0 then 1 else if a = 1 then 2 else if a = 4 ∨ a = 5 then 1 else 0

/-- A two-element buffer `b`: input `[10, 20i]`, kernel `[1, 1]`. -/
def linear_b : Mem ℚ := fun a =>
  if a = 0 then 10 else if a = 3 then 20 else if a = 4 ∨ a = 5 then 1 else 0

/-- The buffer holding the sum of the two inputs, `[11, 2+20i]`, and the same
kernel `[1, 1]`. -/
def linear_ab : Mem ℚ := fun a =>
  if a = 0 then 11 else if a = 1 then 2 else if a = 3 then 20
  else if a = 4 ∨ a = 5 then 1 else 0

/-! ## Basic facts about split-complex numbers -/

namespace Cplx

@[simp]
theorem zero_re : (0 : Cplx K).re = 0 := rfl
@[simp]
theorem zero_im : (0 : Cplx K).im = 0 := rfl
@[simp]
theorem one_re : (1 : Cplx K).re = 1 := rfl
@[simp]
theorem one_im : (1 : Cplx K).im = 0 := rfl
@[simp]
theorem add_re (a b : Cplx K) : (a + b).re = a.re + b.re := rfl
@[simp]
theorem add_im (a b : Cplx K) : (a + b).im = a.im + b.im := rfl
@[simp]
theorem neg_re (a : Cplx K) : (-a).re = -a.re := rfl
@[simp]
theorem neg_im (a : Cplx K) : (-a).im = -a.im := rfl
@[simp]
theorem mul_re (a b : Cplx K) : (a * b).re = a.re * b.re - a.im * b.im := rfl
@[simp]
theorem mul_im (a b : Cplx K) : (a * b).im = a.re * b.im + a.im * b.re := rfl

end Cplx

/-! ## Local store lemmas -/

theorem storev_in (m : Mem K) (p n : Nat) (v : Nat → K) (a : Nat)
    (h1 : p ≤ a) (h2 : a < p + n) : storev m p n v a = v (a - p) := by
  simp [storev, h1, h2]

theorem storev_out (m : Mem K) (p n : Nat) (v : Nat → K) (a : Nat)
    (h : a < p ∨ p + n ≤ a) : storev m p n v a = m a := by
  unfold storev
  rw [if_neg]
  omega

theorem zstore_out (m : Mem K) (re im n : Nat) (v : Nat → Cplx K) (a : Nat)
    (h1 : a < re ∨ re + n ≤ a) (h2 : a < im ∨ im + n ≤ a) :
    zstore m re im n v a = m a := by
  unfold zstore
  rw [storev_out _ _ _ _ _ h2, storev_out _ _ _ _ _ h1]

theorem zstore_re (m : Mem K) (re im n : Nat) (v : Nat → Cplx K) (j : Nat)
    (hd : re + n ≤ im) (hj : j < n) : zstore m re im n v (re + j) = (v j).re := by
  unfold zstore
  rw [storev_out _ _ _ _ _ (by omega), storev_in _ _ _ _ _ (by omega) (by omega)]
  simp

theorem zstore_im (m : Mem K) (re im n : Nat) (v : Nat → Cplx K) (j : Nat)
    (hj : j < n) : zstore m re im n v (im + j) = (v j).im := by
  unfold zstore
  rw [storev_in _ _ _ _ _ (by omega) (by omega)]
  simp

theorem zload_zstore_same (m : Mem K) (re im n : Nat) (v : Nat → Cplx K) (j : Nat)
    (hd : re + n ≤ im) (hj : j < n) : zload (zstore m re im n v) re im j = v j := by
  unfold zload
  rw [zstore_re _ _ _ _ _ _ hd hj, zstore_im _ _ _ _ _ _ hj]

theorem zload_zstore_other (m : Mem K) (re im n : Nat) (v : Nat → Cplx K)
    (re2 im2 j : Nat)
    (h1 : re2 + j < re ∨ re + n ≤ re2 + j) (h2 : re2 + j < im ∨ im + n ≤ re2 + j)
    (h3 : im2 + j < re ∨ re + n ≤ im2 + j) (h4 : im2 + j < im ∨ im + n ≤ im2 + j) :
    zload (zstore m re im n v) re2 im2 j = zload m re2 im2 j := by
  unfold zload
  rw [zstore_out _ _ _ _ _ _ h1 h2, zstore_out _ _ _ _ _ _ h3 h4]

/-! ## Algebra of the exact DFT -/

theorem dft_congr (n : Nat) (w : Cplx K) (x y : Nat → Cplx K)
    (h : ∀ j, j < n → x j = y j) (k : Nat) : dft n w x k = dft n w y k := by
  unfold dft
  apply Finset.sum_congr rfl
  intro j hj
  rw [h j (Finset.mem_range.mp hj)]

theorem conj_eq_pow {n : Nat} {w : Cplx K} (h : IsDFTRoot n w) (hn : 1 ≤ n) :
    Cplx.conj w = w ^ (n - 1) := by
  have h1 : w ^ n = w * w ^ (n - 1) := by
    rw [← pow_succ']
    congr 1
    omega
  calc Cplx.conj w = Cplx.conj w * w ^ n := by rw [h.pow_n, mul_one]
    _ = (w * Cplx.conj w) * w ^ (n - 1) := by rw [h1]; ring
    _ = w ^ (n - 1) := by rw [h.mul_conj, one_mul]

theorem geom_sum_root {n : Nat} {w : Cplx K} (h : IsDFTRoot n w) (e : Nat) :
    ∑ m in Finset.range n, (w ^ e) ^ m = if n ∣ e then (n : Cplx K) else 0 := by
  rcases Nat.eq_zero_or_pos n with h0 | hn
  · subst h0
    simp
  rw [pow_eq_pow_mod e h.pow_n]
  by_cases hd : n ∣ e
  · rw [if_pos hd, Nat.mod_eq_zero_of_dvd hd]
    simp
  · rw [if_neg hd]
    apply h.ortho
    · exact Nat.pos_of_ne_zero (fun h0 => hd (Nat.dvd_of_mod_eq_zero h0))
    · exact Nat.mod_lt _ hn

/-- For indices below `n`, the exponent `a + b + (n-1) j` is a multiple of `n`
exactly when `b` is `(j - a) mod n`. -/
theorem dvd_exponent_iff {n a b j : Nat} (ha : a < n) (hb : b < n) (hj : j < n) :
    n ∣ a + b + (n - 1) * j ↔ b = (j + n - a) % n := by
  have hmod : ∀ t, t < 2 * n → t % n = if t < n then t else t - n := by
    intro t ht
    split
    · rw [Nat.mod_eq_of_lt]; assumption
    · rw [Nat.mod_eq_sub_mod (by omega), Nat.mod_eq_of_lt (by omega)]
  have he : (a + b + (n - 1) * j) % n = (a + b + (n - j)) % n := by
    have h1 : a + b + (n - 1) * j + j = a + b + n * j := by
      have : (n - 1) * j + j = n * j := by
        rw [← Nat.succ_mul]
        congr 1
        omega
      omega
    have h2 : a + b + (n - j) + j = a + b + n := by omega
    have h3 : (a + b + (n - 1) * j + j) % n = (a + b + (n - j) + j) % n := by
      rw [h1, h2, Nat.add_mul_mod_self_left, Nat.add_mod_right]
    exact Nat.ModEq.add_right_cancel' j h3
  rw [Nat.dvd_iff_mod_eq_zero, he, hmod (j + n - a) (by omega)]
  have h3n : a + b + (n - j) < 3 * n := by omega
  constructor
  · intro h
    have hd : n ∣ a + b + (n - j) := Nat.dvd_of_mod_eq_zero h
    obtain ⟨c, hc⟩ := hd
    have hc1 : c = 1 ∨ c = 2 := by
      rcases Nat.lt_or_ge c 3 with h3 | h3
      · interval_cases c
        · omega
        · left; rfl
        · right; rfl
      · have : n * 3 ≤ n * c := Nat.mul_le_mul_left n h3
        omega
    rcases hc1 with rfl | rfl
    · split <;> omega
    · split <;> omega
  · intro h
    split at h
    · have : a + b + (n - j) = n * 2 := by omega
      rw [this]; simp
    · have : a + b + (n - j) = n * 1 := by omega
      rw [this]; simp

theorem natCast_re (n : Nat) : ((n : Cplx K)).re = (n : K) := by
  induction n with
  | zero => simp
  | succ n ih => simp [ih]

theorem natCast_im (n : Nat) : ((n : Cplx K)).im = 0 := by
  induction n with
  | zero => simp
  | succ n ih => simp [ih]

theorem rscale_inv_natCast_mul [CharZero K] (n : Nat) (hn : 1 ≤ n) (z : Cplx K) :
    Cplx.rscale (1 / (n : K)) ((n : Cplx K) * z) = z := by
  have h0 : (n : K) ≠ 0 := by
    have : n ≠ 0 := by omega
    exact_mod_cast this
  ext
  · simp only [Cplx.rscale, Cplx.mul_re, natCast_re, natCast_im]
    field_simp
  · simp only [Cplx.rscale, Cplx.mul_im, natCast_re, natCast_im]
    field_simp

/-- Convolution theorem for the exact DFT: transforming both vectors over `w`,
multiplying pointwise and transforming back over the conjugate root gives `n`
times the circular convolution. -/
theorem dft_conv {n : Nat} {w : Cplx K} (h : IsDFTRoot n w) (hn : 1 ≤ n)
    (x k : Nat → Cplx K) (j : Nat) (hj : j < n) :
    dft n (Cplx.conj w) (fun m => dft n w k m * dft n w x m) j
      = (n : Cplx K) * circular_convolution n x k j := by
  have step : ∀ m, dft n w k m * dft n w x m * Cplx.conj w ^ (m * j)
      = ∑ a in Finset.range n, ∑ b in Finset.range n,
          x a * k b * (w ^ (a + b + (n - 1) * j)) ^ m := by
    intro m
    unfold dft
    rw [Finset.sum_mul_sum, Finset.sum_mul, Finset.sum_comm]
    apply Finset.sum_congr rfl
    intro a _
    rw [Finset.sum_mul]
    apply Finset.sum_congr rfl
    intro b _
    rw [conj_eq_pow h hn]
    ring
  unfold dft circular_convolution at *
  simp only [step]
  rw [Finset.sum_comm, Finset.mul_sum]
  apply Finset.sum_congr rfl
  intro a ha
  rw [Finset.sum_comm]
  have ha2 : a < n := Finset.mem_range.mp ha
  have hb0 : (j + n - a) % n < n := Nat.mod_lt _ (by omega)
  rw [Finset.sum_eq_single ((j + n - a) % n)]
  · rw [← Finset.mul_sum, geom_sum_root h, if_pos ((dvd_exponent_iff ha2 hb0 hj).mpr rfl)]
    ring
  · intro b hb hne
    rw [← Finset.mul_sum, geom_sum_root h,
      if_neg (fun hd => hne ((dvd_exponent_iff ha2 (Finset.mem_range.mp hb) hj).mp hd))]
    simp
  · intro hb
    exact absurd (Finset.mem_range.mpr hb0) hb

/-! ## The CML routines on disjoint planes -/

theorem fft_same (fft : fft1d_f K) (re im : Nat) (dir : cml_fft_dir) (m : Mem K)
    (j : Nat) (hd : re + fft.n ≤ im) (hj : j < fft.n) :
    zload (cml_zzfft1d_ip_f fft re im dir m) re im j
      = dft fft.n (dir_root fft dir) (zload m re im) j := by
  unfold cml_zzfft1d_ip_f
  rw [zload_zstore_same _ _ _ _ _ _ hd hj]
  cases dir <;> rfl

theorem fft_out (fft : fft1d_f K) (re im : Nat) (dir : cml_fft_dir) (m : Mem K)
    (a : Nat) (h1 : a < re ∨ re + fft.n ≤ a) (h2 : a < im ∨ im + fft.n ≤ a) :
    cml_zzfft1d_ip_f fft re im dir m a = m a := by
  unfold cml_zzfft1d_ip_f
  exact zstore_out _ _ _ _ _ _ h1 h2

theorem zvmul_same (a_re a_im b_re b_im z_re z_im n : Nat) (m : Mem K) (j : Nat)
    (hd : z_re + n ≤ z_im) (hj : j < n) :
    zload (cml_zvmul1_f a_re a_im b_re b_im z_re z_im n m) z_re z_im j
      = zload m a_re a_im j * zload m b_re b_im j := by
  unfold cml_zvmul1_f
  rw [zload_zstore_same _ _ _ _ _ _ hd hj]

theorem zvmul_out (a_re a_im b_re b_im z_re z_im n : Nat) (m : Mem K) (a : Nat)
    (h1 : a < z_re ∨ z_re + n ≤ a) (h2 : a < z_im ∨ z_im + n ≤ a) :
    cml_zvmul1_f a_re a_im b_re b_im z_re z_im n m a = m a := by
  unfold cml_zvmul1_f
  exact zstore_out _ _ _ _ _ _ h1 h2

theorem rzsvmul_same (c : K) (a_re a_im z_re z_im n : Nat) (m : Mem K) (j : Nat)
    (hd : z_re + n ≤ z_im) (hj : j < n) :
    zload (cml_core_rzsvmul1_f c a_re a_im z_re z_im n m) z_re z_im j
      = Cplx.rscale c (zload m a_re a_im j) := by
  unfold cml_core_rzsvmul1_f
  rw [zload_zstore_same _ _ _ _ _ _ hd hj]

theorem rzsvmul_out (c : K) (a_re a_im z_re z_im n : Nat) (m : Mem K) (a : Nat)
    (h1 : a < z_re ∨ z_re + n ≤ a) (h2 : a < z_im ∨ z_im + n ≤ a) :
    cml_core_rzsvmul1_f c a_re a_im z_re z_im n m a = m a := by
  unfold cml_core_rzsvmul1_f
  exact zstore_out _ _ _ _ _ _ h1 h2

theorem zload_congr (m1 m2 : Mem K) (re im j : Nat)
    (h1 : m1 (re + j) = m2 (re + j)) (h2 : m1 (im + j) = m2 (im + j)) :
    zload m1 re im j = zload m2 re im j := by
  unfold zload
  rw [h1, h2]

theorem kernel_compute_spec (fc : Fastconv_split_params) (inout : Nat)
    (s : KernelState K) (w : Cplx K) (hp : s.fft = some ⟨fc.elements, w⟩) :
    (kernel_compute fc inout s).1 = .returned 0 ∧
    (kernel_compute fc inout s).2.instance_id = s.instance_id ∧
    (kernel_compute fc inout s).2.current_size = s.current_size ∧
    (kernel_compute fc inout s).2.fft = s.fft ∧
    (∀ j, j < fc.elements →
      data_in fc inout (kernel_compute fc inout s).2.mem j
        = Cplx.rscale (1 / (fc.elements : K))
            (dft fc.elements (Cplx.conj w)
              (fun i => coeff_used w fc inout s.mem i
                * dft fc.elements w (data_in fc inout s.mem) i) j)) ∧
    (∀ j, j < fc.elements →
      coeff_in fc inout (kernel_compute fc inout s).2.mem j
        = coeff_used w fc inout s.mem j) ∧
    (∀ a, a < inout ∨ inout + 4 * fc.elements ≤ a →
      (kernel_compute fc inout s).2.mem a = s.mem a) ∧
    (fc.transform_kernel = 0 → ∀ a, inout + 2 * fc.elements ≤ a →
      (kernel_compute fc inout s).2.mem a = s.mem a) := by
  obtain ⟨sid, scs, sfft, m0⟩ := s
  simp only at hp
  subst hp
  generalize hn : fc.elements = n
  generalize htk : fc.transform_kernel = tk
  have hm1 : ∃ m1 : Mem K, m1 = (if tk ≠ 0 then
      cml_zzfft1d_ip_f (⟨n, w⟩ : fft1d_f K) (inout + 2 * n) (inout + 3 * n) .CML_FFT_FWD m0
      else m0) := ⟨_, rfl⟩
  obtain ⟨m1, hm1⟩ := hm1
  have hm2 : ∃ m2 : Mem K, m2 =
      cml_zzfft1d_ip_f (⟨n, w⟩ : fft1d_f K) inout (inout + n) .CML_FFT_FWD m1 := ⟨_, rfl⟩
  obtain ⟨m2, hm2⟩ := hm2
  have hm3 : ∃ m3 : Mem K, m3 =
      cml_zvmul1_f (inout + 2 * n) (inout + 3 * n) inout (inout + n) inout (inout + n) n m2 :=
    ⟨_, rfl⟩
  obtain ⟨m3, hm3⟩ := hm3
  have hm4 : ∃ m4 : Mem K, m4 =
      cml_zzfft1d_ip_f (⟨n, w⟩ : fft1d_f K) inout (inout + n) .CML_FFT_INV m3 := ⟨_, rfl⟩
  obtain ⟨m4, hm4⟩ := hm4
  have hm5 : ∃ m5 : Mem K, m5 =
      cml_core_rzsvmul1_f (1 / (n : K)) inout (inout + n) inout (inout + n) n m4 := ⟨_, rfl⟩
  obtain ⟨m5, hm5⟩ := hm5
  have hk : kernel_compute fc inout
      ({ instance_id := sid, current_size := scs, fft := some ⟨n, w⟩, mem := m0 } :
        KernelState K)
      = (.returned 0,
          { instance_id := sid, current_size := scs, fft := some ⟨n, w⟩, mem := m5 }) := by
    simp only [kernel_compute, hn, htk, Nat.one_mul]
    rw [hm5, hm4, hm3, hm2, hm1]
  rw [hk]
  simp only [data_in, coeff_in, coeff_used, hn, htk]
  -- step 1: the coefficient planes
  have h1c : ∀ j, j < n → zload m1 (inout + 2 * n) (inout + 3 * n) j
      = (if tk ≠ 0 then dft n w (zload m0 (inout + 2 * n) (inout + 3 * n))
          else zload m0 (inout + 2 * n) (inout + 3 * n)) j := by
    intro j hj
    rw [hm1]
    by_cases h : tk ≠ 0
    · rw [if_pos h, if_pos h]
      exact fft_same (⟨n, w⟩ : fft1d_f K) _ _ .CML_FFT_FWD m0 j (by simp; omega) hj
    · rw [if_neg h, if_neg h]
  have h1o : ∀ a, a < inout + 2 * n ∨ inout + 4 * n ≤ a → m1 a = m0 a := by
    intro a ha
    rw [hm1]
    by_cases h : tk ≠ 0
    · rw [if_pos h]
      exact fft_out (⟨n, w⟩ : fft1d_f K) _ _ _ m0 a (by simp; omega) (by simp; omega)
    · rw [if_neg h]
  have h1z : tk = 0 → m1 = m0 := by
    intro h
    rw [hm1, if_neg (by simpa using h)]
  -- step 2: forward transform of the data planes
  have h2d : ∀ j, j < n → zload m2 inout (inout + n) j
      = dft n w (zload m0 inout (inout + n)) j := by
    intro j hj
    rw [hm2, fft_same (⟨n, w⟩ : fft1d_f K) _ _ .CML_FFT_FWD m1 j (by simp) hj]
    apply dft_congr
    intro i hi
    have hi2 : i < n := hi
    exact zload_congr _ _ _ _ _ (h1o _ (by omega)) (h1o _ (by omega))
  have h2o : ∀ a, a < inout ∨ inout + 2 * n ≤ a → m2 a = m1 a := by
    intro a ha
    rw [hm2]
    exact fft_out (⟨n, w⟩ : fft1d_f K) _ _ _ m1 a (by simp; omega) (by simp; omega)
  -- step 3: pointwise product
  have h3d : ∀ j, j < n → zload m3 inout (inout + n) j
      = (if tk ≠ 0 then dft n w (zload m0 (inout + 2 * n) (inout + 3 * n))
          else zload m0 (inout + 2 * n) (inout + 3 * n)) j
        * dft n w (zload m0 inout (inout + n)) j := by
    intro j hj
    rw [hm3, zvmul_same _ _ _ _ _ _ _ _ _ (le_refl _) hj, h2d j hj, ← h1c j hj]
    congr 1
    exact zload_congr _ _ _ _ _ (h2o _ (by omega)) (h2o _ (by omega))
  have h3o : ∀ a, a < inout ∨ inout + 2 * n ≤ a → m3 a = m2 a := by
    intro a ha
    rw [hm3]
    exact zvmul_out _ _ _ _ _ _ _ _ a (by omega) (by omega)
  -- step 4: inverse transform
  have h4d : ∀ j, j < n → zload m4 inout (inout + n) j
      = dft n (Cplx.conj w) (fun i =>
          (if tk ≠ 0 then dft n w (zload m0 (inout + 2 * n) (inout + 3 * n))
            else zload m0 (inout + 2 * n) (inout + 3 * n)) i
          * dft n w (zload m0 inout (inout + n)) i) j := by
    intro j hj
    rw [hm4, fft_same (⟨n, w⟩ : fft1d_f K) _ _ .CML_FFT_INV m3 j (by simp) hj]
    apply dft_congr
    intro i hi
    exact h3d i hi
  have h4o : ∀ a, a < inout ∨ inout + 2 * n ≤ a → m4 a = m3 a := by
    intro a ha
    rw [hm4]
    exact fft_out (⟨n, w⟩ : fft1d_f K) _ _ _ m3 a (by simp; omega) (by simp; omega)
  -- step 5: scaling
  have h5d : ∀ j, j < n → zload m5 inout (inout + n) j
      = Cplx.rscale (1 / (n : K)) (zload m4 inout (inout + n) j) := by
    intro j hj
    rw [hm5, rzsvmul_same _ _ _ _ _ _ _ _ (le_refl _) hj]
  have h5o : ∀ a, a < inout ∨ inout + 2 * n ≤ a → m5 a = m4 a := by
    intro a ha
    rw [hm5]
    exact rzsvmul_out _ _ _ _ _ _ _ a (by omega) (by omega)
  have hout : ∀ a, a < inout ∨ inout + 2 * n ≤ a → m5 a = m1 a := by
    intro a ha
    rw [h5o a ha, h4o a ha, h3o a ha, h2o a ha]
  refine ⟨trivial, trivial, trivial, trivial, ?_, ?_, ?_, ?_⟩
  · intro j hj
    rw [h5d j hj, h4d j hj]
  · intro j hj
    rw [← h1c j hj]
    exact zload_congr _ _ _ _ _ (hout _ (by omega)) (hout _ (by omega))
  · intro a ha
    rw [hout a (by omega), h1o a (by omega)]
  · intro h a ha
    rw [hout a (by omega), h1z h]

/-! ## The plan check of `kernel` -/

theorem kernel_compute_statics (fc : Fastconv_split_params) (inout : Nat)
    (s : KernelState K) :
    (kernel_compute fc inout s).2.instance_id = s.instance_id ∧
    (kernel_compute fc inout s).2.current_size = s.current_size ∧
    (kernel_compute fc inout s).2.fft = s.fft := by
  unfold kernel_compute
  split <;> simp_all

theorem kernel_compute_congr (fc : Fastconv_split_params) (inout : Nat)
    (s t : KernelState K) (hf : s.fft = t.fft) (hm : s.mem = t.mem) :
    (kernel_compute fc inout s).1 = (kernel_compute fc inout t).1 ∧
    (kernel_compute fc inout s).2.mem = (kernel_compute fc inout t).2.mem := by
  unfold kernel_compute
  rw [hf, hm]
  split <;> simp_all

/-- With a consistent cache, a supported positive length within the bound, and
either iteration 0 or an unchanged length, `kernel` runs its transforms with
the plan built for exactly `fc.elements`, which is also what the cache holds
afterwards. -/
theorem kernel_eq_compute (lib : CML K) (MAX_SIZE : Nat) (fc : Fastconv_split_params)
    (inout iter total : Nat) (s : KernelState K)
    (hinv : CacheInv lib s) (hsz : iter = 0 ∨ s.current_size = fc.elements)
    (hn : 1 ≤ fc.elements) (hmax : fc.elements ≤ MAX_SIZE)
    (hsup : lib.supported fc.elements = true) :
    kernel lib MAX_SIZE fc inout iter total s
      = kernel_compute fc inout
          { s with fft := some ⟨fc.elements, lib.twiddle fc.elements⟩,
                   current_size := fc.elements } := by
  obtain ⟨sid, scs, sfft, m0⟩ := s
  unfold kernel
  simp only [not_le.symm, hmax, not_true_eq_false, if_false]
  by_cases hc : iter = 0 ∧ fc.elements ≠ scs
  · rw [if_pos hc]
    simp [cml_fft1d_setup_f, hsup]
  · rw [if_neg hc]
    have hcs : scs = fc.elements := by
      rcases hsz with h | h
      · by_contra hne
        exact hc ⟨h, fun h2 => hne h2.symm⟩
      · exact h
    subst hcs
    rcases hinv with ⟨h0, _⟩ | h
    · simp only at h0
      omega
    · simp only at h
      subst h
      rfl

/-- With a consistent cache, a positive length, and iteration 0 or an unchanged
length, a call either runs its transforms with the plan for `fc.elements`, or
it is cut short by an assertion before anything is written to the local
store. Which of the two happens does not depend on the local store. -/
theorem kernel_runs_or_aborts (lib : CML K) (MAX_SIZE : Nat) (fc : Fastconv_split_params)
    (inout iter total : Nat) (s : KernelState K)
    (hinv : CacheInv lib s) (hsz : iter = 0 ∨ s.current_size = fc.elements)
    (hn : 1 ≤ fc.elements) :
    (∀ m : Mem K, kernel lib MAX_SIZE fc inout iter total { s with mem := m }
      = kernel_compute fc inout
          { s with fft := some ⟨fc.elements, lib.twiddle fc.elements⟩,
                   current_size := fc.elements, mem := m }) ∨
    (¬ (fc.elements ≤ MAX_SIZE ∧ lib.supported fc.elements = true) ∧
      ∀ m : Mem K,
        (kernel lib MAX_SIZE fc inout iter total { s with mem := m }).1 ≠ .returned 0 ∧
        (kernel lib MAX_SIZE fc inout iter total { s with mem := m }).2.mem = m) := by
  by_cases hmax : fc.elements ≤ MAX_SIZE
  · by_cases hc : iter = 0 ∧ fc.elements ≠ s.current_size
    · by_cases hsup : lib.supported fc.elements = true
      · left
        intro m
        exact kernel_eq_compute lib MAX_SIZE fc inout iter total { s with mem := m } hinv hsz
          hn hmax hsup
      · right
        refine ⟨fun h => hsup h.2, ?_⟩
        intro m
        unfold kernel
        simp [hmax, hc, cml_fft1d_setup_f, hsup]
    · left
      intro m
      have hcs : s.current_size = fc.elements := by
        rcases hsz with h | h
        · by_contra hne
          exact hc ⟨h, fun h2 => hne h2.symm⟩
        · exact h
      obtain ⟨sid, scs, sfft, m0⟩ := s
      simp only at hcs hc
      subst hcs
      unfold kernel
      simp only [hmax, not_true_eq_false, if_false, if_neg hc]
      rcases hinv with ⟨h0, _⟩ | h
      · simp only at h0
        omega
      · simp only at h
        subst h
        rfl
  · right
    refine ⟨fun h => hmax h.1, ?_⟩
    intro m
    unfold kernel
    simp [hmax]

theorem CacheInv_init (lib : CML K) (m : Mem K) : CacheInv lib (KernelState.init m) :=
  Or.inl ⟨rfl, rfl⟩

/-- Every call of `kernel` that reaches `return` leaves the cache consistent. -/
theorem CacheInv_kernel (lib : CML K) (MAX_SIZE : Nat) (fc : Fastconv_split_params)
    (inout iter total : Nat) (s : KernelState K) (rv : Int)
    (hinv : CacheInv lib s)
    (hret : (kernel lib MAX_SIZE fc inout iter total s).1 = .returned rv) :
    CacheInv lib (kernel lib MAX_SIZE fc inout iter total s).2 := by
  unfold kernel at hret ⊢
  by_cases hmax : fc.elements ≤ MAX_SIZE
  · simp only [hmax, not_true_eq_false, if_false] at hret ⊢
    by_cases hc : iter = 0 ∧ fc.elements ≠ s.current_size
    · rw [if_pos hc] at hret ⊢
      by_cases hsup : lib.supported fc.elements = true
      · simp only [cml_fft1d_setup_f, hsup, if_true] at hret ⊢
        simp only [ne_eq, one_ne_zero, not_false_eq_true, Option.isSome_some, and_self,
          if_true] at hret ⊢
        obtain ⟨_, h2, h3⟩ := kernel_compute_statics fc inout
          ({ s with fft := some ⟨fc.elements, lib.twiddle fc.elements⟩,
                    current_size := fc.elements } : KernelState K)
        right
        rw [h3, h2]
      · simp [cml_fft1d_setup_f, hsup] at hret
    · rw [if_neg hc] at hret ⊢
      obtain ⟨_, h2, h3⟩ := kernel_compute_statics fc inout s
      unfold CacheInv
      rw [h3, h2]
      exact hinv
  · simp [hmax] at hret

/-- Every state a run can be in has a consistent plan cache. -/
theorem CacheInv_of_reachable (lib : CML K) (MAX_SIZE : Nat) (s : KernelState K)
    (h : Reachable lib MAX_SIZE s) : CacheInv lib s := by
  induction h with
  | start m => exact CacheInv_init lib m
  | staged s m _ ih => exact ih
  | call s fc inout iter total rv _ hret ih =>
    exact CacheInv_kernel lib MAX_SIZE fc inout iter total s rv ih hret

/-- Closed form of a call that runs with the plan for `fc.elements`. -/
theorem kernel_spec (lib : CML K) (MAX_SIZE : Nat) (fc : Fastconv_split_params)
    (inout iter total : Nat) (s : KernelState K)
    (hinv : CacheInv lib s) (hsz : iter = 0 ∨ s.current_size = fc.elements)
    (hn : 1 ≤ fc.elements) (hmax : fc.elements ≤ MAX_SIZE)
    (hsup : lib.supported fc.elements = true) :
    (kernel lib MAX_SIZE fc inout iter total s).1 = .returned 0 ∧
    (kernel lib MAX_SIZE fc inout iter total s).2.instance_id = s.instance_id ∧
    (kernel lib MAX_SIZE fc inout iter total s).2.current_size = fc.elements ∧
    (kernel lib MAX_SIZE fc inout iter total s).2.fft
      = some ⟨fc.elements, lib.twiddle fc.elements⟩ ∧
    (∀ j, j < fc.elements →
      data_in fc inout (kernel lib MAX_SIZE fc inout iter total s).2.mem j
        = Cplx.rscale (1 / (fc.elements : K))
            (dft fc.elements (Cplx.conj (lib.twiddle fc.elements))
              (fun i => coeff_used (lib.twiddle fc.elements) fc inout s.mem i
                * dft fc.elements (lib.twiddle fc.elements) (data_in fc inout s.mem) i) j)) ∧
    (∀ j, j < fc.elements →
      coeff_in fc inout (kernel lib MAX_SIZE fc inout iter total s).2.mem j
        = coeff_used (lib.twiddle fc.elements) fc inout s.mem j) ∧
    (∀ a, a < inout ∨ inout + 4 * fc.elements ≤ a →
      (kernel lib MAX_SIZE fc inout iter total s).2.mem a = s.mem a) ∧
    (fc.transform_kernel = 0 → ∀ a, inout + 2 * fc.elements ≤ a →
      (kernel lib MAX_SIZE fc inout iter total s).2.mem a = s.mem a) := by
  rw [kernel_eq_compute lib MAX_SIZE fc inout iter total s hinv hsz hn hmax hsup]
  exact kernel_compute_spec fc inout _ (lib.twiddle fc.elements) rfl

/-! ## The convolution computed by `kernel` -/

theorem conv_closed_form [CharZero K] {n : Nat} {w : Cplx K} (h : IsDFTRoot n w)
    (hn : 1 ≤ n) (x k kf xf : Nat → Cplx K)
    (hk : ∀ i, i < n → kf i = dft n w k i) (hx : ∀ i, i < n → xf i = dft n w x i)
    (j : Nat) (hj : j < n) :
    Cplx.rscale (1 / (n : K)) (dft n (Cplx.conj w) (fun i => kf i * xf i) j)
      = circular_convolution n x k j := by
  have h1 : dft n (Cplx.conj w) (fun i => kf i * xf i) j
      = dft n (Cplx.conj w) (fun m => dft n w k m * dft n w x m) j := by
    apply dft_congr
    intro i hi
    simp only [hk i hi, hx i hi]
  rw [h1, dft_conv h hn x k j hj, rscale_inv_natCast_mul n hn]

theorem cplx_eq_of_planes (z x : Cplx K) (h : z.re = x.re ∧ z.im = x.im) : z = x :=
  Cplx.ext h.1 h.2

theorem rat_root_four : IsDFTRoot 4 (cml_rat.twiddle 4) := by
  refine ⟨?_, ?_, ?_⟩
  · ext <;> simp [cml_rat, pow_succ]
  · ext <;> simp [cml_rat, Cplx.conj]
  · intro r h1 h2
    interval_cases r <;> ext <;> simp [cml_rat, Finset.sum_range_succ, pow_succ]

theorem rat_root_two : IsDFTRoot 2 (cml_rat.twiddle 2) := by
  refine ⟨?_, ?_, ?_⟩
  · ext <;> simp [cml_rat, pow_succ]
  · ext <;> simp [cml_rat, Cplx.conj]
  · intro r h1 h2
    have hr : r = 1 := by omega
    subst hr
    ext <;> simp [cml_rat, Finset.sum_range_succ, pow_succ]

theorem mod_of_lt_two_mul (n t : Nat) (ht : t < 2 * n) :
    t % n = if t < n then t else t - n := by
  split
  · rw [Nat.mod_eq_of_lt]; assumption
  · rw [Nat.mod_eq_sub_mod (by omega), Nat.mod_eq_of_lt (by omega)]

/-- Convolving with the unit impulse returns the input. -/
theorem circular_convolution_impulse (n : Nat) (x k : Nat → Cplx K)
    (hk : ∀ i, i < n → k i = if i = 0 then 1 else 0) (j : Nat) (hj : j < n) :
    circular_convolution n x k j = x j := by
  unfold circular_convolution
  rw [Finset.sum_eq_single j]
  · have h0 : (j + n - j) % n = 0 := by
      rw [Nat.add_sub_cancel_left, Nat.mod_self]
    rw [h0, hk 0 (by omega)]
    simp
  · intro i hi hne
    have hi2 : i < n := Finset.mem_range.mp hi
    have hlt : (j + n - i) % n < n := Nat.mod_lt _ (by omega)
    have hnz : (j + n - i) % n ≠ 0 := by
      rw [mod_of_lt_two_mul n (j + n - i) (by omega)]
      split <;> omega
    rw [hk _ hlt, if_neg hnz, mul_zero]
  · intro h
    exact absurd (Finset.mem_range.mpr hj) h

/-- The transform of the unit impulse is all ones. -/
theorem dft_impulse (n : Nat) (w : Cplx K) (k : Nat → Cplx K) (hn : 1 ≤ n)
    (hk : ∀ i, i < n → k i = if i = 0 then 1 else 0) (j : Nat) : dft n w k j = 1 := by
  unfold dft
  rw [Finset.sum_eq_single 0]
  · rw [hk 0 (by omega)]
    simp
  · intro i hi hne
    rw [hk i (Finset.mem_range.mp hi), if_neg hne, zero_mul]
  · intro h
    exact absurd (Finset.mem_range.mpr (by omega)) h

/-- A call at iteration 0 with the flag set on time-domain data: the data
planes end up holding the circular convolution. -/
theorem kernel_conv_time_domain [CharZero K] (lib : CML K) (MAX_SIZE : Nat)
    (fc : Fastconv_split_params) (inout total : Nat) (s : KernelState K)
    (x k : Nat → Cplx K)
    (hn : 1 ≤ fc.elements) (hmax : fc.elements ≤ MAX_SIZE)
    (htk : fc.transform_kernel ≠ 0)
    (hsup : lib.supported fc.elements = true)
    (hw : IsDFTRoot fc.elements (lib.twiddle fc.elements))
    (hinv : CacheInv lib s)
    (hx : ∀ j, j < fc.elements → data_in fc inout s.mem j = x j)
    (hk : ∀ j, j < fc.elements → coeff_in fc inout s.mem j = k j) :
    (kernel lib MAX_SIZE fc inout 0 total s).1 = .returned 0 ∧
    (kernel lib MAX_SIZE fc inout 0 total s).2.current_size = fc.elements ∧
    CacheInv lib (kernel lib MAX_SIZE fc inout 0 total s).2 ∧
    ∀ j, j < fc.elements →
      data_in fc inout (kernel lib MAX_SIZE fc inout 0 total s).2.mem j
        = circular_convolution fc.elements x k j := by
  obtain ⟨hret, _, hcs, hfft, hdata, _, _, _⟩ :=
    kernel_spec lib MAX_SIZE fc inout 0 total s hinv (Or.inl rfl) hn hmax hsup
  refine ⟨hret, hcs, ?_, ?_⟩
  · right
    rw [hfft, hcs]
  intro j hj
  have hc := hdata j hj
  rw [conv_closed_form hw hn x k _ _ ?_ ?_ j hj] at hc
  · exact hc
  · intro i hi
    unfold coeff_used
    rw [if_pos htk]
    exact dft_congr _ _ _ _ hk i
  · intro i hi
    exact dft_congr _ _ _ _ hx i

/-! ## Batches -/

theorem data_in_load_input (fc : Fastconv_split_params) (inout : Nat)
    (x : Nat → Cplx K) (m : Mem K) (j : Nat) (hj : j < fc.elements) :
    data_in fc inout (load_input fc inout x m) j = x j := by
  unfold data_in load_input
  exact zload_zstore_same _ _ _ _ _ _ (le_refl _) hj

theorem coeff_in_load_input (fc : Fastconv_split_params) (inout : Nat)
    (x : Nat → Cplx K) (m : Mem K) (j : Nat) :
    coeff_in fc inout (load_input fc inout x m) j = coeff_in fc inout m j := by
  unfold coeff_in load_input
  exact zload_zstore_other _ _ _ _ _ _ _ _ (by omega) (by omega) (by omega) (by omega)

/-- One iteration of a batch under the transform-once discipline. -/
theorem batch_step [CharZero K] (lib : CML K) (MAX_SIZE : Nat)
    (fc : Fastconv_split_params) (inout total iter : Nat) (s : KernelState K)
    (x k : Nat → Cplx K)
    (hn : 1 ≤ fc.elements) (hmax : fc.elements ≤ MAX_SIZE)
    (hsup : lib.supported fc.elements = true)
    (hw : IsDFTRoot fc.elements (lib.twiddle fc.elements))
    (hinv : CacheInv lib s)
    (h0 : iter = 0 → ∀ j, j < fc.elements → coeff_in fc inout s.mem j = k j)
    (h1 : iter ≠ 0 → s.current_size = fc.elements ∧ ∀ j, j < fc.elements →
      coeff_in fc inout s.mem j = dft fc.elements (lib.twiddle fc.elements) k j) :
    (kernel lib MAX_SIZE { fc with transform_kernel := if iter = 0 then 1 else 0 }
        inout iter total { s with mem := load_input fc inout x s.mem }).1 = .returned 0 ∧
    CacheInv lib (kernel lib MAX_SIZE
        { fc with transform_kernel := if iter = 0 then 1 else 0 }
        inout iter total { s with mem := load_input fc inout x s.mem }).2 ∧
    (kernel lib MAX_SIZE { fc with transform_kernel := if iter = 0 then 1 else 0 }
        inout iter total { s with mem := load_input fc inout x s.mem }).2.current_size
      = fc.elements ∧
    (∀ j, j < fc.elements →
      data_in fc inout (kernel lib MAX_SIZE
        { fc with transform_kernel := if iter = 0 then 1 else 0 }
        inout iter total { s with mem := load_input fc inout x s.mem }).2.mem j
        = circular_convolution fc.elements x k j) ∧
    (∀ j, j < fc.elements →
      coeff_in fc inout (kernel lib MAX_SIZE
        { fc with transform_kernel := if iter = 0 then 1 else 0 }
        inout iter total { s with mem := load_input fc inout x s.mem }).2.mem j
        = dft fc.elements (lib.twiddle fc.elements) k j) := by
  have hinv2 : CacheInv lib ({ s with mem := load_input fc inout x s.mem } : KernelState K) :=
    hinv
  have hsz : iter = 0 ∨ ({ s with mem := load_input fc inout x s.mem } : KernelState K).current_size
      = ({ fc with transform_kernel := if iter = 0 then 1 else 0 } :
          Fastconv_split_params).elements := by
    by_cases hi : iter = 0
    · exact Or.inl hi
    · exact Or.inr (h1 hi).1
  obtain ⟨hret, _, hcs, hfft, hdata, hcoeff, _, _⟩ :=
    kernel_spec lib MAX_SIZE { fc with transform_kernel := if iter = 0 then 1 else 0 }
      inout iter total { s with mem := load_input fc inout x s.mem } hinv2 hsz hn hmax hsup
  have hused : ∀ j, j < fc.elements →
      coeff_used (lib.twiddle fc.elements)
        { fc with transform_kernel := if iter = 0 then 1 else 0 } inout
        (load_input fc inout x s.mem) j
        = dft fc.elements (lib.twiddle fc.elements) k j := by
    intro j hj
    unfold coeff_used
    by_cases hi : iter = 0
    · simp only [hi, if_true, ne_eq, one_ne_zero, not_false_eq_true]
      apply dft_congr
      intro a ha
      exact (coeff_in_load_input fc inout x s.mem a).trans (h0 hi a ha)
    · simp only [hi, if_false, ne_eq, not_true_eq_false]
      exact (coeff_in_load_input fc inout x s.mem j).trans ((h1 hi).2 j hj)
  refine ⟨hret, ?_, hcs, ?_, ?_⟩
  · right
    rw [hfft, hcs]
  · intro j hj
    have hc := hdata j hj
    rw [conv_closed_form hw hn x k _ _ hused ?_ j hj] at hc
    · exact hc
    · intro i hi
      apply dft_congr
      intro a ha
      exact data_in_load_input fc inout x s.mem a ha
  · intro j hj
    exact (hcoeff j hj).trans (hused j hj)

theorem run_batch_length (lib : CML K) (MAX_SIZE : Nat) (fc : Fastconv_split_params)
    (inout total : Nat) (xs : List (Nat → Cplx K)) :
    ∀ (iter : Nat) (s : KernelState K),
      (run_batch lib MAX_SIZE fc inout total iter xs s).length = xs.length := by
  induction xs with
  | nil => intro iter s; rfl
  | cons x xs ih =>
    intro iter s
    simp only [run_batch, List.length_cons, ih]

theorem run_batch_correct [CharZero K] (lib : CML K) (MAX_SIZE : Nat)
    (fc : Fastconv_split_params) (inout total : Nat) (k : Nat → Cplx K)
    (hn : 1 ≤ fc.elements) (hmax : fc.elements ≤ MAX_SIZE)
    (hsup : lib.supported fc.elements = true)
    (hw : IsDFTRoot fc.elements (lib.twiddle fc.elements))
    (xs : List (Nat → Cplx K)) :
    ∀ (iter : Nat) (s : KernelState K), CacheInv lib s →
      (iter = 0 → ∀ j, j < fc.elements → coeff_in fc inout s.mem j = k j) →
      (iter ≠ 0 → s.current_size = fc.elements ∧ ∀ j, j < fc.elements →
        coeff_in fc inout s.mem j = dft fc.elements (lib.twiddle fc.elements) k j) →
      ∀ i (hi : i < xs.length), ∃ r,
        (run_batch lib MAX_SIZE fc inout total iter xs s)[i]? = some r ∧
        r.1 = .returned 0 ∧
        (∀ j, j < fc.elements →
          data_in fc inout r.2.mem j = circular_convolution fc.elements (xs.get ⟨i, hi⟩) k j) ∧
        (∀ j, j < fc.elements →
          coeff_in fc inout r.2.mem j = dft fc.elements (lib.twiddle fc.elements) k j) := by
  induction xs with
  | nil =>
    intro iter s _ _ _ i hi
    exact absurd hi (Nat.not_lt_zero i)
  | cons x xs ih =>
    intro iter s hinv h0 h1 i hi
    obtain ⟨hret, hinv2, hcs, hdata, hcoeff⟩ :=
      batch_step lib MAX_SIZE fc inout total iter s x k hn hmax hsup hw hinv h0 h1
    cases i with
    | zero =>
      refine ⟨_, ?_, hret, hdata, hcoeff⟩
      simp only [run_batch, List.getElem?_cons_zero]
    | succ i =>
      have hi2 : i < xs.length := Nat.lt_of_succ_lt_succ hi
      obtain ⟨r, hr, h⟩ := ih (iter + 1) _ hinv2 (fun h => absurd h (Nat.succ_ne_zero iter))
        (fun _ => ⟨hcs, hcoeff⟩) i hi2
      refine ⟨r, ?_, h⟩
      simp only [run_batch, List.getElem?_cons_succ]
      exact hr

/-- A second call with the flag still set multiplies by the transform of the
transform of the kernel. -/
theorem kernel_second_transform (lib : CML K) (MAX_SIZE : Nat)
    (fc : Fastconv_split_params) (inout total : Nat) (s : KernelState K)
    (x k : Nat → Cplx K)
    (hn : 1 ≤ fc.elements) (hmax : fc.elements ≤ MAX_SIZE)
    (htk : fc.transform_kernel ≠ 0)
    (hsup : lib.supported fc.elements = true)
    (hinv : CacheInv lib s)
    (hk : ∀ j, j < fc.elements → coeff_in fc inout s.mem j = k j) :
    (kernel lib MAX_SIZE fc inout 1 total
      { (kernel lib MAX_SIZE fc inout 0 total s).2 with
        mem := load_input fc inout x (kernel lib MAX_SIZE fc inout 0 total s).2.mem }).1
      = .returned 0 ∧
    (∀ j, j < fc.elements →
      data_in fc inout (kernel lib MAX_SIZE fc inout 1 total
        { (kernel lib MAX_SIZE fc inout 0 total s).2 with
          mem := load_input fc inout x (kernel lib MAX_SIZE fc inout 0 total s).2.mem }).2.mem j
      = Cplx.rscale (1 / (fc.elements : K))
          (dft fc.elements (Cplx.conj (lib.twiddle fc.elements))
            (fun i => dft fc.elements (lib.twiddle fc.elements)
                (dft fc.elements (lib.twiddle fc.elements) k) i
              * dft fc.elements (lib.twiddle fc.elements) x i) j)) ∧
    (∀ j, j < fc.elements →
      coeff_in fc inout (kernel lib MAX_SIZE fc inout 1 total
        { (kernel lib MAX_SIZE fc inout 0 total s).2 with
          mem := load_input fc inout x (kernel lib MAX_SIZE fc inout 0 total s).2.mem }).2.mem j
      = dft fc.elements (lib.twiddle fc.elements)
          (dft fc.elements (lib.twiddle fc.elements) k) j) := by
  obtain ⟨hret1, _, hcs1, hfft1, _, hcoeff1, _, _⟩ :=
    kernel_spec lib MAX_SIZE fc inout 0 total s hinv (Or.inl rfl) hn hmax hsup
  have hinv2 : CacheInv lib ({ (kernel lib MAX_SIZE fc inout 0 total s).2 with
      mem := load_input fc inout x (kernel lib MAX_SIZE fc inout 0 total s).2.mem } :
      KernelState K) := by
    right
    simp only [hfft1, hcs1]
  obtain ⟨hret2, _, _, _, hdata2, hcoeff2, _, _⟩ :=
    kernel_spec lib MAX_SIZE fc inout 1 total _ hinv2 (Or.inr hcs1) hn hmax hsup
  have hused : ∀ j, j < fc.elements →
      coeff_used (lib.twiddle fc.elements) fc inout
        (load_input fc inout x (kernel lib MAX_SIZE fc inout 0 total s).2.mem) j
      = dft fc.elements (lib.twiddle fc.elements)
          (dft fc.elements (lib.twiddle fc.elements) k) j := by
    intro j hj
    unfold coeff_used
    rw [if_pos htk]
    apply dft_congr
    intro a ha
    rw [coeff_in_load_input, hcoeff1 a ha]
    unfold coeff_used
    rw [if_pos htk]
    exact dft_congr _ _ _ _ hk a
  refine ⟨hret2, ?_, ?_⟩
  · intro j hj
    rw [hdata2 j hj]
    congr 1
    apply dft_congr
    intro i hi
    simp only
    rw [hused i hi]
    congr 1
    apply dft_congr
    intro a ha
    exact data_in_load_input fc inout x _ a ha
  · intro j hj
    rw [hcoeff2 j hj]
    exact hused j hj

/-! ## Linearity of the exact DFT -/

theorem dft_add (n : Nat) (w : Cplx K) (x y : Nat → Cplx K) (k : Nat) :
    dft n w (fun i => x i + y i) k = dft n w x k + dft n w y k := by
  unfold dft
  rw [← Finset.sum_add_distrib]
  apply Finset.sum_congr rfl
  intro j _
  ring

theorem rscale_add (c : K) (a b : Cplx K) :
    Cplx.rscale c (a + b) = Cplx.rscale c a + Cplx.rscale c b := by
  ext <;> simp [Cplx.rscale] <;> ring

/-! ## The transfer declarations -/

/-- What `input` and `output` declare depends on the iteration index and the
request only: not on `total`, not on what the list handle held before. -/
theorem input_output_pure (fc : Fastconv_split_params) (e1 e2 : dtl)
    (iter t1 t2 : Nat) :
    input dtl_recorder fc e1 iter t1 = input dtl_recorder fc e2 iter t2 ∧
    output dtl_recorder fc e1 iter t1 = output dtl_recorder fc e2 iter t2 :=
  ⟨rfl, rfl⟩

/-- Without wrap-around the C address expression is `base + iter*stride*4`. -/
theorem plane_ea_exact (base iter stride : Nat) (h1 : iter * stride * 4 < 2 ^ 32)
    (h2 : base + iter * stride * 4 < 2 ^ 64) :
    plane_ea base iter stride = base + iter * stride * 4 := by
  unfold plane_ea UINT_BITS ADDR_BITS
  have h3 : iter * stride < 2 ^ 32 := by omega
  rw [Nat.mod_eq_of_lt h3, Nat.mod_eq_of_lt h1, Nat.mod_eq_of_lt h2]

/-! ## The hypothesis on the twiddle factor is met over the reals -/

/-- Over the reals every length `n >= 1` has a twiddle factor satisfying
`IsDFTRoot`, namely `exp(-2 pi i / n)`. -/
theorem exists_dft_root_real (n : Nat) (hn : 1 ≤ n) : ∃ w : Cplx ℝ, IsDFTRoot n w := by
  have hn0 : n ≠ 0 := by omega
  obtain ⟨ζ, hζ⟩ : ∃ ζ : ℂ, IsPrimitiveRoot ζ n :=
    ⟨_, (Complex.isPrimitiveRoot_exp n hn0).inv⟩
  have hmul : ∀ a b : ℂ, (⟨(a * b).re, (a * b).im⟩ : Cplx ℝ)
      = (⟨a.re, a.im⟩ : Cplx ℝ) * ⟨b.re, b.im⟩ := by
    intro a b
    ext <;> simp
  have hpow : ∀ (a : ℂ) (m : Nat), (⟨(a ^ m).re, (a ^ m).im⟩ : Cplx ℝ)
      = (⟨a.re, a.im⟩ : Cplx ℝ) ^ m := by
    intro a m
    induction m with
    | zero => ext <;> simp
    | succ m ih => rw [pow_succ, pow_succ, hmul, ih]
  have hsum : ∀ (f : Nat → ℂ) (m : Nat),
      (⟨(∑ i in Finset.range m, f i).re, (∑ i in Finset.range m, f i).im⟩ : Cplx ℝ)
      = ∑ i in Finset.range m, (⟨(f i).re, (f i).im⟩ : Cplx ℝ) := by
    intro f m
    induction m with
    | zero => ext <;> simp
    | succ m ih =>
      rw [Finset.sum_range_succ, Finset.sum_range_succ, ← ih]
      ext <;> simp
  refine ⟨⟨ζ.re, ζ.im⟩, ?_, ?_, ?_⟩
  · rw [← hpow, hζ.pow_eq_one]
    ext <;> simp
  · have hnorm : ‖ζ‖ = 1 := Complex.norm_eq_one_of_pow_eq_one hζ.pow_eq_one hn0
    have h1 : ζ * (starRingEnd ℂ) ζ = 1 := by
      rw [Complex.mul_conj, Complex.normSq_eq_abs, ← Complex.norm_eq_abs, hnorm]
      simp
    have hre := congrArg Complex.re h1
    have him := congrArg Complex.im h1
    simp at hre him
    ext
    · simp [Cplx.conj]
      linarith
    · simp [Cplx.conj]
      linarith
  · intro r hr0 hrn
    have hne : ζ ^ r ≠ 1 := hζ.pow_ne_one_of_pos_of_lt hr0 hrn
    have hgeo : ∑ m in Finset.range n, (ζ ^ r) ^ m = 0 := by
      have h := mul_geom_sum (ζ ^ r) n
      have h2 : (ζ ^ r) ^ n = 1 := by rw [← pow_mul, mul_comm, pow_mul, hζ.pow_eq_one, one_pow]
      rw [h2, sub_self] at h
      rcases mul_eq_zero.mp h with h3 | h3
      · exact absurd (sub_eq_zero.mp h3) hne
      · exact h3
    have := hsum (fun m => (ζ ^ r) ^ m) n
    rw [hgeo] at this
    simp only [← hpow] at *
    rw [← this]
    ext <;> simp

/-- Over the reals there is a library that builds a plan for every length
`n >= 1` and whose twiddle factors are all exact. -/
theorem exists_exact_library_real :
    ∃ lib : CML ℝ, ∀ n, 1 ≤ n →
      lib.supported n = true ∧ IsDFTRoot n (lib.twiddle n) := by
  classical
  refine ⟨⟨fun _ => true,
    fun n => if h : 1 ≤ n then Classical.choose (exists_dft_root_real n h) else 1⟩, ?_⟩
  intro n hn
  refine ⟨rfl, ?_⟩
  simp only [dif_pos hn]
  exact Classical.choose_spec (exists_dft_root_real n hn)

/-! ## Claims -/

/-- C1: for every length `n` with `1 <= n <= MAX_SIZE` that the library
supports, and every complex input `x` and time-domain kernel `k` laid out in
the working buffer as `[x_re | x_im | k_re | k_im]`, a call of `kernel` at
iteration 0 with `transform_kernel` set (exact DFT, consistent plan cache)
returns 0 and leaves in the first two regions exactly the circular
convolution `y[j] = sum_i x[i] * k[(j - i) mod n]`. -/
theorem kernel_circular_convolution [CharZero K] (lib : CML K) (MAX_SIZE : Nat)
    (fc : Fastconv_split_params) (inout total : Nat) (s : KernelState K)
    (x k : Nat → Cplx K)
    (hn : 1 ≤ fc.elements) (hmax : fc.elements ≤ MAX_SIZE)
    (htk : fc.transform_kernel ≠ 0)
    (hsup : lib.supported fc.elements = true)
    (hw : IsDFTRoot fc.elements (lib.twiddle fc.elements))
    (hinv : CacheInv lib s)
    (hx : ∀ j, j < fc.elements →
      s.mem (inout + j) = (x j).re ∧ s.mem (inout + fc.elements + j) = (x j).im)
    (hk : ∀ j, j < fc.elements →
      s.mem (inout + 2 * fc.elements + j) = (k j).re ∧
      s.mem (inout + 3 * fc.elements + j) = (k j).im) :
    (kernel lib MAX_SIZE fc inout 0 total s).1 = .returned 0 ∧
    ∀ j, j < fc.elements →
      (kernel lib MAX_SIZE fc inout 0 total s).2.mem (inout + j)
        = (circular_convolution fc.elements x k j).re ∧
      (kernel lib MAX_SIZE fc inout 0 total s).2.mem (inout + fc.elements + j)
        = (circular_convolution fc.elements x k j).im := by
  obtain ⟨hret, _, _, hdata⟩ :=
    kernel_conv_time_domain lib MAX_SIZE fc inout total s x k hn hmax htk hsup hw hinv
      (fun j hj => cplx_eq_of_planes _ _ (hx j hj))
      (fun j hj => cplx_eq_of_planes _ _ (hk j hj))
  refine ⟨hret, ?_⟩
  intro j hj
  rw [← hdata j hj]
  exact ⟨rfl, rfl⟩

/-- C1, worked example: `n = 4`, `x = [1,0,0,0]`, `k = [1,1,0,0]` gives the
result `[1,1,0,0]` (real plane at offsets 0..3, imaginary plane at 4..7). -/
theorem kernel_circular_convolution_witness :
    (kernel cml_rat 4 (request 4 1) 0 0 0 (KernelState.init scenario_buffer)).1
      = .returned 0 ∧
    (List.range 8).map
        (kernel cml_rat 4 (request 4 1) 0 0 0 (KernelState.init scenario_buffer)).2.mem
      = [1, 1, 0, 0, 0, 0, 0, 0] := by
  have h := kernel_circular_convolution cml_rat 4 (request 4 1) 0 0
    (KernelState.init scenario_buffer) scenario_x scenario_k
    (by decide) (by decide) (by decide) (by decide) rat_root_four (CacheInv_init _ _)
    (by
      intro j hj
      have hj4 : j < 4 := hj
      interval_cases j <;>
        simp [KernelState.init, scenario_buffer, scenario_x, request])
    (by
      intro j hj
      have hj4 : j < 4 := hj
      interval_cases j <;>
        simp [KernelState.init, scenario_buffer, scenario_k, request])
  refine ⟨h.1, ?_⟩
  have h0 := h.2 0 (by decide)
  have h1 := h.2 1 (by decide)
  have h2 := h.2 2 (by decide)
  have h3 := h.2 3 (by decide)
  simp only [request, circular_convolution, Finset.sum_range_succ, Finset.sum_range_zero,
    scenario_x, scenario_k] at h0 h1 h2 h3
  norm_num at h0 h1 h2 h3
  simp [List.range, List.range.loop, request, h0, h1, h2, h3]

/-- C2: for every length `n >= 1` and every complex input `x`, a call of
`kernel` with `transform_kernel` set and the kernel planes holding the
time-domain unit impulse (`k[0] = 1`, `k[i] = 0` otherwise) leaves the input
planes equal to the original `x` (exact DFT, consistent plan cache). When the
call passes its assertions (`n <= MAX_SIZE`, plan construction succeeds) it
returns 0 and the kernel planes hold the transformed representation, which is
all ones; when it does not, nothing has been written. -/
theorem kernel_identity_impulse [CharZero K] (lib : CML K) (MAX_SIZE : Nat)
    (fc : Fastconv_split_params) (inout total : Nat) (s : KernelState K)
    (hn : 1 ≤ fc.elements)
    (htk : fc.transform_kernel ≠ 0)
    (hw : IsDFTRoot fc.elements (lib.twiddle fc.elements))
    (hinv : CacheInv lib s)
    (hk : ∀ j, j < fc.elements →
      s.mem (inout + 2 * fc.elements + j) = (if j = 0 then 1 else 0) ∧
      s.mem (inout + 3 * fc.elements + j) = 0) :
    (∀ j, j < fc.elements →
      (kernel lib MAX_SIZE fc inout 0 total s).2.mem (inout + j) = s.mem (inout + j) ∧
      (kernel lib MAX_SIZE fc inout 0 total s).2.mem (inout + fc.elements + j)
        = s.mem (inout + fc.elements + j)) ∧
    (fc.elements ≤ MAX_SIZE → lib.supported fc.elements = true →
      (kernel lib MAX_SIZE fc inout 0 total s).1 = .returned 0 ∧
      ∀ j, j < fc.elements →
        (kernel lib MAX_SIZE fc inout 0 total s).2.mem (inout + 2 * fc.elements + j) = 1 ∧
        (kernel lib MAX_SIZE fc inout 0 total s).2.mem (inout + 3 * fc.elements + j) = 0) := by
  have himp : ∀ i, i < fc.elements →
      coeff_in fc inout s.mem i = if i = 0 then 1 else 0 := by
    intro i hi
    apply Cplx.ext
    · rw [show (coeff_in fc inout s.mem i).re = s.mem (inout + 2 * fc.elements + i) from rfl,
        (hk i hi).1]
      split <;> rfl
    · rw [show (coeff_in fc inout s.mem i).im = s.mem (inout + 3 * fc.elements + i) from rfl,
        (hk i hi).2]
      split <;> rfl
  refine ⟨?_, ?_⟩
  · intro j hj
    rcases kernel_runs_or_aborts lib MAX_SIZE fc inout 0 total s hinv (Or.inl rfl) hn
      with h | h
    · have hrun : kernel lib MAX_SIZE fc inout 0 total s
          = kernel_compute fc inout
              { s with fft := some ⟨fc.elements, lib.twiddle fc.elements⟩,
                       current_size := fc.elements, mem := s.mem } := h s.mem
      obtain ⟨_, _, _, _, hdata, _, _, _⟩ := kernel_compute_spec fc inout
        ({ s with fft := some ⟨fc.elements, lib.twiddle fc.elements⟩,
                  current_size := fc.elements, mem := s.mem } : KernelState K)
        (lib.twiddle fc.elements) rfl
      have hc := hdata j hj
      rw [← hrun, conv_closed_form hw hn (data_in fc inout s.mem) (coeff_in fc inout s.mem)
        _ _ ?_ ?_ j hj, circular_convolution_impulse fc.elements _ _ himp j hj] at hc
      · exact ⟨congrArg Cplx.re hc, congrArg Cplx.im hc⟩
      · intro i hi
        unfold coeff_used
        rw [if_pos htk]
      · intro i hi
        rfl
    · have hmem : (kernel lib MAX_SIZE fc inout 0 total s).2.mem = s.mem := (h.2 s.mem).2
      rw [hmem]
      exact ⟨rfl, rfl⟩
  · intro hmax hsup
    obtain ⟨hret, _, _, _, _, hcoeff, _, _⟩ :=
      kernel_spec lib MAX_SIZE fc inout 0 total s hinv (Or.inl rfl) hn hmax hsup
    refine ⟨hret, ?_⟩
    intro j hj
    have hc := hcoeff j hj
    unfold coeff_used at hc
    rw [if_pos htk, dft_impulse _ _ _ hn himp j] at hc
    exact ⟨congrArg Cplx.re hc, congrArg Cplx.im hc⟩

/-- C2, worked example: the two-element input `[3+i, 2-5i]` against the unit
impulse comes back unchanged. -/
theorem kernel_identity_impulse_witness :
    (kernel cml_rat 4 (request 2 1) 0 0 0 (KernelState.init identity_buffer)).1
      = .returned 0 ∧
    (List.range 4).map
        (kernel cml_rat 4 (request 2 1) 0 0 0 (KernelState.init identity_buffer)).2.mem
      = [3, 2, 1, -5] := by
  have h := kernel_identity_impulse cml_rat 4 (request 2 1) 0 0
    (KernelState.init identity_buffer)
    (by decide) (by decide) rat_root_two (CacheInv_init _ _)
    (by
      intro j hj
      have hj2 : j < 2 := hj
      interval_cases j <;> simp [KernelState.init, identity_buffer, request])
  refine ⟨(h.2 (by decide) (by decide)).1, ?_⟩
  have h0 := h.1 0 (by decide)
  have h1 := h.1 1 (by decide)
  simp only [request, KernelState.init, identity_buffer] at h0 h1
  norm_num at h0 h1
  simp [List.range, List.range.loop, request, KernelState.init, h0, h1]

/-- C3: with `transform_kernel` set on iteration 0 and cleared on iterations
1..k of a batch that keeps running on the kernel planes left in the working
buffer, with a fresh input staged into the input planes each time, every call
returns 0 and its result is the circular convolution of that input with the
original time-domain kernel `k`; the kernel planes hold the forward transform
of `k` after every call of the batch. In particular, any single call that runs
with the plan for its length leaves the kernel planes unchanged when the flag
is cleared, and equal to the forward transform of their previous contents when
it is set. -/
theorem kernel_transform_once [CharZero K] (lib : CML K) (MAX_SIZE : Nat)
    (fc : Fastconv_split_params) (inout total : Nat) (s : KernelState K)
    (k : Nat → Cplx K) (xs : List (Nat → Cplx K))
    (hn : 1 ≤ fc.elements) (hmax : fc.elements ≤ MAX_SIZE)
    (hsup : lib.supported fc.elements = true)
    (hw : IsDFTRoot fc.elements (lib.twiddle fc.elements))
    (hinv : CacheInv lib s)
    (hk : ∀ j, j < fc.elements →
      s.mem (inout + 2 * fc.elements + j) = (k j).re ∧
      s.mem (inout + 3 * fc.elements + j) = (k j).im) :
    (run_batch lib MAX_SIZE fc inout total 0 xs s).length = xs.length ∧
    (∀ i (hi : i < xs.length), ∃ r,
      (run_batch lib MAX_SIZE fc inout total 0 xs s)[i]? = some r ∧
      r.1 = .returned 0 ∧
      (∀ j, j < fc.elements →
        r.2.mem (inout + j)
          = (circular_convolution fc.elements (xs.get ⟨i, hi⟩) k j).re ∧
        r.2.mem (inout + fc.elements + j)
          = (circular_convolution fc.elements (xs.get ⟨i, hi⟩) k j).im) ∧
      (∀ j, j < fc.elements →
        r.2.mem (inout + 2 * fc.elements + j)
          = (dft fc.elements (lib.twiddle fc.elements) k j).re ∧
        r.2.mem (inout + 3 * fc.elements + j)
          = (dft fc.elements (lib.twiddle fc.elements) k j).im)) ∧
    (∀ (g : Fastconv_split_params) (iter : Nat) (t : KernelState K),
      g.elements = fc.elements → CacheInv lib t →
      (iter = 0 ∨ t.current_size = g.elements) →
      (g.transform_kernel = 0 → ∀ j, j < g.elements →
        (kernel lib MAX_SIZE g inout iter total t).2.mem (inout + 2 * g.elements + j)
          = t.mem (inout + 2 * g.elements + j) ∧
        (kernel lib MAX_SIZE g inout iter total t).2.mem (inout + 3 * g.elements + j)
          = t.mem (inout + 3 * g.elements + j)) ∧
      (g.transform_kernel ≠ 0 → ∀ j, j < g.elements →
        (kernel lib MAX_SIZE g inout iter total t).2.mem (inout + 2 * g.elements + j)
          = (dft g.elements (lib.twiddle g.elements) (coeff_in g inout t.mem) j).re ∧
        (kernel lib MAX_SIZE g inout iter total t).2.mem (inout + 3 * g.elements + j)
          = (dft g.elements (lib.twiddle g.elements) (coeff_in g inout t.mem) j).im)) := by
  refine ⟨run_batch_length lib MAX_SIZE fc inout total xs 0 s, ?_, ?_⟩
  · intro i hi
    obtain ⟨r, hr, hret, hdata, hcoeff⟩ :=
      run_batch_correct lib MAX_SIZE fc inout total k hn hmax hsup hw xs 0 s hinv
        (fun _ j hj => cplx_eq_of_planes _ _ (hk j hj))
        (fun h => absurd rfl h) i hi
    refine ⟨r, hr, hret, ?_, ?_⟩
    · intro j hj
      rw [← hdata j hj]
      exact ⟨rfl, rfl⟩
    · intro j hj
      rw [← hcoeff j hj]
      exact ⟨rfl, rfl⟩
  · intro g iter t hg hinvt hsz
    obtain ⟨_, _, _, _, _, hcoeff, _, hclear⟩ :=
      kernel_spec lib MAX_SIZE g inout iter total t hinvt hsz (by rw [hg]; exact hn)
        (by rw [hg]; exact hmax) (by rw [hg]; exact hsup)
    refine ⟨?_, ?_⟩
    · intro h0 j hj
      exact ⟨hclear h0 _ (by omega), hclear h0 _ (by omega)⟩
    · intro h1 j hj
      have hc := hcoeff j hj
      unfold coeff_used at hc
      rw [if_pos h1] at hc
      exact ⟨congrArg Cplx.re hc, congrArg Cplx.im hc⟩

/-- C3, worked example: kernel `[1, 1]`, inputs `[1, 0]` then `[2, 3]`; the
second call (iteration 1, flag cleared) returns 0 and leaves `[5, 5]`. -/
theorem kernel_transform_once_witness :
    (run_batch cml_rat 4 (request 2 0) 0 0 0 [batch_x0, batch_x1]
        (KernelState.init batch_buffer)).length = 2 ∧
    ∃ r, (run_batch cml_rat 4 (request 2 0) 0 0 0 [batch_x0, batch_x1]
        (KernelState.init batch_buffer))[1]? = some r ∧
      r.1 = .returned 0 ∧ (List.range 4).map r.2.mem = [5, 5, 0, 0] := by
  have h := kernel_transform_once cml_rat 4 (request 2 0) 0 0
    (KernelState.init batch_buffer) batch_k [batch_x0, batch_x1]
    (by decide) (by decide) (by decide) rat_root_two (CacheInv_init _ _)
    (by
      intro j hj
      have hj2 : j < 2 := hj
      interval_cases j <;> simp [KernelState.init, batch_buffer, batch_k, request])
  refine ⟨h.1, ?_⟩
  obtain ⟨r, hr, hret, hdata, _⟩ := h.2.1 1 (by decide)
  refine ⟨r, hr, hret, ?_⟩
  have h0 := hdata 0 (by decide)
  have h1 := hdata 1 (by decide)
  simp only [request, circular_convolution, Finset.sum_range_succ, Finset.sum_range_zero,
    batch_x1, batch_k, List.get] at h0 h1
  norm_num at h0 h1
  simp [List.range, List.range.loop, h0, h1]

/-- C4: setting `transform_kernel` on every iteration gives wrong results.
There are a length (2), an input (`[3+i, 2-5i]`) and a time-domain kernel (the
unit impulse) over an exact DFT such that the first call with the flag set is
correct, while a second call with the flag set again on the kernel planes left
by the first call, input planes reloaded with the same input, returns 0 with a
result different from the circular convolution: the kernel planes then hold the
forward transform applied twice. -/
theorem kernel_retransform_incorrect :
    ∃ (lib : CML ℚ) (MAX_SIZE : Nat) (fc : Fastconv_split_params) (m : Mem ℚ)
      (x k : Nat → Cplx ℚ),
      1 ≤ fc.elements ∧ fc.elements ≤ MAX_SIZE ∧ fc.transform_kernel ≠ 0 ∧
      lib.supported fc.elements = true ∧
      IsDFTRoot fc.elements (lib.twiddle fc.elements) ∧
      (∀ j, j < fc.elements → data_in fc 0 m j = x j ∧ coeff_in fc 0 m j = k j) ∧
      (kernel lib MAX_SIZE fc 0 0 0 (KernelState.init m)).1 = .returned 0 ∧
      (∀ j, j < fc.elements →
        data_in fc 0 (kernel lib MAX_SIZE fc 0 0 0 (KernelState.init m)).2.mem j
          = circular_convolution fc.elements x k j) ∧
      (kernel lib MAX_SIZE fc 0 1 0
        { (kernel lib MAX_SIZE fc 0 0 0 (KernelState.init m)).2 with
          mem := load_input fc 0 x
            (kernel lib MAX_SIZE fc 0 0 0 (KernelState.init m)).2.mem }).1 = .returned 0 ∧
      (∃ j, j < fc.elements ∧
        data_in fc 0 (kernel lib MAX_SIZE fc 0 1 0
          { (kernel lib MAX_SIZE fc 0 0 0 (KernelState.init m)).2 with
            mem := load_input fc 0 x
              (kernel lib MAX_SIZE fc 0 0 0 (KernelState.init m)).2.mem }).2.mem j
          ≠ circular_convolution fc.elements x k j) ∧
      (∀ j, j < fc.elements →
        coeff_in fc 0 (kernel lib MAX_SIZE fc 0 1 0
          { (kernel lib MAX_SIZE fc 0 0 0 (KernelState.init m)).2 with
            mem := load_input fc 0 x
              (kernel lib MAX_SIZE fc 0 0 0 (KernelState.init m)).2.mem }).2.mem j
          = dft fc.elements (lib.twiddle fc.elements)
              (dft fc.elements (lib.twiddle fc.elements) k) j) := by
  have hlay : ∀ j, j < (request 2 1).elements →
      data_in (request 2 1) 0 identity_buffer j = identity_x j ∧
      coeff_in (request 2 1) 0 identity_buffer j = unit_impulse j := by
    intro j hj
    have hj2 : j < 2 := hj
    interval_cases j <;>
      simp [data_in, coeff_in, zload, identity_buffer, identity_x, unit_impulse, request,
        Cplx.ext_iff]
  have hfirst := kernel_conv_time_domain cml_rat 4 (request 2 1) 0 0
    (KernelState.init identity_buffer) identity_x unit_impulse
    (by decide) (by decide) (by decide) (by decide) rat_root_two (CacheInv_init _ _)
    (fun j hj => (hlay j hj).1) (fun j hj => (hlay j hj).2)
  obtain ⟨hret2, hdata2, hcoeff2⟩ := kernel_second_transform cml_rat 4 (request 2 1) 0 0
    (KernelState.init identity_buffer) identity_x unit_impulse
    (by decide) (by decide) (by decide) (by decide) (CacheInv_init _ _)
    (fun j hj => (hlay j hj).2)
  refine ⟨cml_rat, 4, request 2 1, identity_buffer, identity_x, unit_impulse,
    by decide, by decide, by decide, by decide, rat_root_two, hlay, hfirst.1,
    hfirst.2.2.2, hret2, ?_, hcoeff2⟩
  · refine ⟨0, by decide, ?_⟩
    rw [hdata2 0 (by decide)]
    intro h
    have hre := congrArg Cplx.re h
    simp [request, dft, circular_convolution, Finset.sum_range_succ, cml_rat, identity_x,
      unit_impulse, Cplx.conj, Cplx.rscale] at hre
    norm_num at hre

/-- C5: the result of an iteration-0 call does not depend on the plan-cache
state left by earlier calls. For supported lengths `n, m >= 1` within
`MAX_SIZE`: (i) from any two consistent cache states the call at size `n` on
the same buffer contents has the same outcome and leaves the same buffer;
(ii) calling twice at size `n` on the same buffer contents gives the same
result as calling once; (iii) in a sequence of calls at sizes `n`, then `m`
(any other size, `m != n` included), then `n` again, each call returns 0,
records its own size as the current size, and leaves the circular convolution
at its own size. -/
theorem kernel_plan_cache_independent [CharZero K] (lib : CML K) (MAX_SIZE : Nat)
    (fn fm : Fastconv_split_params) (inout total : Nat) (s : KernelState K)
    (b1 b2 b3 : Mem K)
    (hn : 1 ≤ fn.elements) (hnmax : fn.elements ≤ MAX_SIZE)
    (hm : 1 ≤ fm.elements) (hmmax : fm.elements ≤ MAX_SIZE)
    (hntk : fn.transform_kernel ≠ 0) (hmtk : fm.transform_kernel ≠ 0)
    (hnsup : lib.supported fn.elements = true) (hmsup : lib.supported fm.elements = true)
    (hnw : IsDFTRoot fn.elements (lib.twiddle fn.elements))
    (hmw : IsDFTRoot fm.elements (lib.twiddle fm.elements))
    (hinv : CacheInv lib s) :
    (∀ s2 : KernelState K, CacheInv lib s2 →
      (kernel_on lib MAX_SIZE fn inout total s2 b1).1
        = (kernel_on lib MAX_SIZE fn inout total s b1).1 ∧
      (kernel_on lib MAX_SIZE fn inout total s2 b1).2.mem
        = (kernel_on lib MAX_SIZE fn inout total s b1).2.mem) ∧
    ((kernel_on lib MAX_SIZE fn inout total
        (kernel_on lib MAX_SIZE fn inout total s b1).2 b1).1
        = (kernel_on lib MAX_SIZE fn inout total s b1).1 ∧
      (kernel_on lib MAX_SIZE fn inout total
        (kernel_on lib MAX_SIZE fn inout total s b1).2 b1).2.mem
        = (kernel_on lib MAX_SIZE fn inout total s b1).2.mem) ∧
    ((kernel_on lib MAX_SIZE fn inout total s b1).1 = .returned 0 ∧
      (kernel_on lib MAX_SIZE fn inout total s b1).2.current_size = fn.elements ∧
      ∀ j, j < fn.elements →
        data_in fn inout (kernel_on lib MAX_SIZE fn inout total s b1).2.mem j
          = circular_convolution fn.elements (data_in fn inout b1) (coeff_in fn inout b1) j) ∧
    ((kernel_on lib MAX_SIZE fm inout total
        (kernel_on lib MAX_SIZE fn inout total s b1).2 b2).1 = .returned 0 ∧
      (kernel_on lib MAX_SIZE fm inout total
        (kernel_on lib MAX_SIZE fn inout total s b1).2 b2).2.current_size = fm.elements ∧
      ∀ j, j < fm.elements →
        data_in fm inout (kernel_on lib MAX_SIZE fm inout total
          (kernel_on lib MAX_SIZE fn inout total s b1).2 b2).2.mem j
          = circular_convolution fm.elements (data_in fm inout b2) (coeff_in fm inout b2) j) ∧
    ((kernel_on lib MAX_SIZE fn inout total
        (kernel_on lib MAX_SIZE fm inout total
          (kernel_on lib MAX_SIZE fn inout total s b1).2 b2).2 b3).1 = .returned 0 ∧
      (kernel_on lib MAX_SIZE fn inout total
        (kernel_on lib MAX_SIZE fm inout total
          (kernel_on lib MAX_SIZE fn inout total s b1).2 b2).2 b3).2.current_size
        = fn.elements ∧
      ∀ j, j < fn.elements →
        data_in fn inout (kernel_on lib MAX_SIZE fn inout total
          (kernel_on lib MAX_SIZE fm inout total
            (kernel_on lib MAX_SIZE fn inout total s b1).2 b2).2 b3).2.mem j
          = circular_convolution fn.elements (data_in fn inout b3) (coeff_in fn inout b3) j) := by
  have indep : ∀ (t1 t2 : KernelState K), CacheInv lib t1 → CacheInv lib t2 →
      (kernel_on lib MAX_SIZE fn inout total t1 b1).1
        = (kernel_on lib MAX_SIZE fn inout total t2 b1).1 ∧
      (kernel_on lib MAX_SIZE fn inout total t1 b1).2.mem
        = (kernel_on lib MAX_SIZE fn inout total t2 b1).2.mem := by
    intro t1 t2 h1 h2
    unfold kernel_on
    rw [kernel_eq_compute lib MAX_SIZE fn inout 0 total _
        (show CacheInv lib ({ t1 with mem := b1 } : KernelState K) from h1)
        (Or.inl rfl) hn hnmax hnsup,
      kernel_eq_compute lib MAX_SIZE fn inout 0 total _
        (show CacheInv lib ({ t2 with mem := b1 } : KernelState K) from h2)
        (Or.inl rfl) hn hnmax hnsup]
    exact kernel_compute_congr fn inout _ _ rfl rfl
  have step : ∀ (fc : Fastconv_split_params) (t : KernelState K) (b : Mem K),
      1 ≤ fc.elements → fc.elements ≤ MAX_SIZE → fc.transform_kernel ≠ 0 →
      lib.supported fc.elements = true → IsDFTRoot fc.elements (lib.twiddle fc.elements) →
      CacheInv lib t →
      (kernel_on lib MAX_SIZE fc inout total t b).1 = .returned 0 ∧
      (kernel_on lib MAX_SIZE fc inout total t b).2.current_size = fc.elements ∧
      CacheInv lib (kernel_on lib MAX_SIZE fc inout total t b).2 ∧
      ∀ j, j < fc.elements →
        data_in fc inout (kernel_on lib MAX_SIZE fc inout total t b).2.mem j
          = circular_convolution fc.elements (data_in fc inout b) (coeff_in fc inout b) j := by
    intro fc t b h1 h2 h3 h4 h5 h6
    exact kernel_conv_time_domain lib MAX_SIZE fc inout total { t with mem := b }
      (data_in fc inout b) (coeff_in fc inout b) h1 h2 h3 h4 h5 h6
      (fun _ _ => rfl) (fun _ _ => rfl)
  obtain ⟨r1, c1, i1, d1⟩ := step fn s b1 hn hnmax hntk hnsup hnw hinv
  obtain ⟨r2, c2, i2, d2⟩ := step fm _ b2 hm hmmax hmtk hmsup hmw i1
  obtain ⟨r3, c3, _, d3⟩ := step fn _ b3 hn hnmax hntk hnsup hnw i2
  exact ⟨fun s2 h2 => indep s2 s h2 hinv, indep _ s i1 hinv, ⟨r1, c1, d1⟩, ⟨r2, c2, d2⟩,
    ⟨r3, c3, d3⟩⟩

/-- C5, worked example: sizes 2, 4, 2 on the buffers of the earlier examples;
the third call (size 2 again, after the plan was rebuilt for 4) returns 0 with
current size 2 and leaves the input `[3+i, 2-5i]` convolved with the impulse. -/
theorem kernel_plan_cache_independent_witness :
    (kernel_on cml_rat 4 (request 2 1) 0 0
      (kernel_on cml_rat 4 (request 4 1) 0 0
        (kernel_on cml_rat 4 (request 2 1) 0 0 (KernelState.init identity_buffer)
          identity_buffer).2 scenario_buffer).2 identity_buffer).1 = .returned 0 ∧
    (kernel_on cml_rat 4 (request 2 1) 0 0
      (kernel_on cml_rat 4 (request 4 1) 0 0
        (kernel_on cml_rat 4 (request 2 1) 0 0 (KernelState.init identity_buffer)
          identity_buffer).2 scenario_buffer).2 identity_buffer).2.current_size = 2 ∧
    (List.range 2).map (data_in (request 2 1) 0
      (kernel_on cml_rat 4 (request 2 1) 0 0
        (kernel_on cml_rat 4 (request 4 1) 0 0
          (kernel_on cml_rat 4 (request 2 1) 0 0 (KernelState.init identity_buffer)
            identity_buffer).2 scenario_buffer).2 identity_buffer).2.mem)
      = [⟨3, 1⟩, ⟨2, -5⟩] := by
  have h := kernel_plan_cache_independent cml_rat 4 (request 2 1) (request 4 1) 0 0
    (KernelState.init identity_buffer) identity_buffer scenario_buffer identity_buffer
    (by decide) (by decide) (by decide) (by decide) (by decide) (by decide)
    (by decide) (by decide) rat_root_two rat_root_four (CacheInv_init _ _)
  obtain ⟨_, _, _, _, hret, hcs, hdata⟩ := h
  refine ⟨hret, hcs, ?_⟩
  have h0 := hdata 0 (by decide)
  have h1 := hdata 1 (by decide)
  simp only [request, circular_convolution, Finset.sum_range_succ, Finset.sum_range_zero,
    data_in, coeff_in, zload, identity_buffer] at h0 h1
  norm_num at h0 h1
  simp only [List.range, List.range.loop, List.map, request, data_in, zload]
  rw [h0, h1]
  simp [Cplx.ext_iff]

/-- C6, counterexample: from the initial empty cache, an iteration-0 call with
`elements = 0` (within `MAX_SIZE`, with a library whose setup would succeed)
skips the rebuild because the recorded current size is already 0: the plan
pointer is still null afterwards and the transforms are entered without a
plan. -/
theorem kernel_zero_length_no_plan :
    (request 0 1).elements ≤ 4 ∧ cml_lenient.supported (request 0 1).elements = true ∧
    (kernel cml_lenient 4 (request 0 1) 0 0 0 (KernelState.init scenario_buffer)).2.fft
      = none ∧
    (kernel cml_lenient 4 (request 0 1) 0 0 0 (KernelState.init scenario_buffer)).1
      = .null_plan := by
  refine ⟨by decide, rfl, rfl, rfl⟩

/-- C6 (amended): after any `kernel` call at iteration 0 with
`1 <= elements <= MAX_SIZE` for which plan construction succeeds, started from
the initial empty cache or from any consistent cache state left by earlier
calls, the call returns 0, the plan pointer is not null, the plan is the one
built for exactly `elements`, and the recorded current size is `elements`. -/
theorem kernel_plan_after_call (lib : CML K) (MAX_SIZE : Nat)
    (fc : Fastconv_split_params) (inout total : Nat) (s : KernelState K)
    (hn : 1 ≤ fc.elements) (hmax : fc.elements ≤ MAX_SIZE)
    (hsup : lib.supported fc.elements = true)
    (hinv : CacheInv lib s) :
    (kernel lib MAX_SIZE fc inout 0 total s).1 = .returned 0 ∧
    (kernel lib MAX_SIZE fc inout 0 total s).2.fft ≠ none ∧
    (kernel lib MAX_SIZE fc inout 0 total s).2.fft
      = (cml_fft1d_setup_f lib fc.elements).2 ∧
    (∀ p, (kernel lib MAX_SIZE fc inout 0 total s).2.fft = some p → p.n = fc.elements) ∧
    (kernel lib MAX_SIZE fc inout 0 total s).2.current_size = fc.elements := by
  obtain ⟨hret, _, hcs, hfft, _, _, _, _⟩ :=
    kernel_spec lib MAX_SIZE fc inout 0 total s hinv (Or.inl rfl) hn hmax hsup
  refine ⟨hret, ?_, ?_, ?_, hcs⟩
  · rw [hfft]
    exact Option.some_ne_none _
  · rw [hfft]
    simp [cml_fft1d_setup_f, hsup]
  · intro p hp
    rw [hfft] at hp
    cases hp
    rfl

/-- C6 (amended), worked example: a first call with two elements. -/
theorem kernel_plan_after_call_witness :
    (kernel cml_rat 4 (request 2 1) 0 0 0 (KernelState.init identity_buffer)).1
      = .returned 0 ∧
    (kernel cml_rat 4 (request 2 1) 0 0 0 (KernelState.init identity_buffer)).2.fft ≠ none ∧
    (kernel cml_rat 4 (request 2 1) 0 0 0 (KernelState.init identity_buffer)).2.current_size
      = 2 := by
  have h := kernel_plan_after_call cml_rat 4 (request 2 1) 0 0
    (KernelState.init identity_buffer) (by decide) (by decide) (by decide) (CacheInv_init _ _)
  exact ⟨h.1, h.2.1, h.2.2.2.2⟩

/-- C7: with `elements = MAX_SIZE` the size check passes, and the call
completes returning 0 (given `MAX_SIZE >= 1`, plan construction for `MAX_SIZE`
succeeding, a consistent cache, and iteration 0 or a batch already running at
that size); with `elements > MAX_SIZE` the size assertion fails before
anything else happens: the statics and the whole local store are exactly as
before the call. -/
theorem kernel_size_boundary (lib : CML K) (MAX_SIZE : Nat)
    (fc : Fastconv_split_params) (inout iter total : Nat) (s : KernelState K) :
    (fc.elements = MAX_SIZE →
      (kernel lib MAX_SIZE fc inout iter total s).1 ≠ .assert_size) ∧
    (fc.elements = MAX_SIZE → 1 ≤ MAX_SIZE → lib.supported MAX_SIZE = true →
      CacheInv lib s → (iter = 0 ∨ s.current_size = MAX_SIZE) →
      (kernel lib MAX_SIZE fc inout iter total s).1 = .returned 0) ∧
    (MAX_SIZE < fc.elements →
      kernel lib MAX_SIZE fc inout iter total s = (.assert_size, s)) := by
  refine ⟨?_, ?_, ?_⟩
  · intro he
    unfold kernel
    simp only [he, le_refl, not_true_eq_false, if_false]
    split
    · split
      · unfold kernel_compute
        split <;> simp
      · simp
    · unfold kernel_compute
      split <;> simp
  · intro he h1 hsup hinv hsz
    exact (kernel_spec lib MAX_SIZE fc inout iter total s hinv (by rw [he]; exact hsz)
      (by omega) (by omega) (by rw [he]; exact hsup)).1
  · intro hlt
    unfold kernel
    rw [if_pos (by omega)]

/-- C7, worked example: with `MAX_SIZE = 4`, four elements return 0 and five
elements fail the size assertion with the state untouched. -/
theorem kernel_size_boundary_witness :
    (kernel cml_rat 4 (request 4 1) 0 0 0 (KernelState.init scenario_buffer)).1
      = .returned 0 ∧
    kernel cml_rat 4 (request 5 1) 0 0 0 (KernelState.init scenario_buffer)
      = (.assert_size, KernelState.init scenario_buffer) :=
  ⟨(kernel_size_boundary cml_rat 4 (request 4 1) 0 0 0
      (KernelState.init scenario_buffer)).2.1 rfl (by decide) (by decide)
      (CacheInv_init _ _) (Or.inl rfl),
   (kernel_size_boundary cml_rat 4 (request 5 1) 0 0 0
      (KernelState.init scenario_buffer)).2.2 (by decide)⟩

/-- C8: for every kernel and all inputs `a`, `b` of the same length `n >= 1`,
with the same request (same `transform_kernel` flag) and the same plan state,
the result left in the input planes for input `a + b` is the elementwise sum
of the results for `a` and for `b` (consistent plan cache; iteration 0, or a
later iteration of a batch whose size is the recorded current size). When the
calls pass their assertions (`n <= MAX_SIZE`, plan construction succeeds) all
three return 0; when they do not, nothing has been written. -/
theorem kernel_linear (lib : CML K) (MAX_SIZE : Nat)
    (fc : Fastconv_split_params) (inout iter total : Nat) (s : KernelState K)
    (ma mb mab : Mem K)
    (hn : 1 ≤ fc.elements)
    (hinv : CacheInv lib s) (hsz : iter = 0 ∨ s.current_size = fc.elements)
    (hka : ∀ j, j < fc.elements → coeff_in fc inout ma j = coeff_in fc inout mab j)
    (hkb : ∀ j, j < fc.elements → coeff_in fc inout mb j = coeff_in fc inout mab j)
    (hsum : ∀ j, j < fc.elements →
      data_in fc inout mab j = data_in fc inout ma j + data_in fc inout mb j) :
    (∀ j, j < fc.elements →
      data_in fc inout (kernel lib MAX_SIZE fc inout iter total { s with mem := mab }).2.mem j
        = data_in fc inout (kernel lib MAX_SIZE fc inout iter total { s with mem := ma }).2.mem j
          + data_in fc inout
              (kernel lib MAX_SIZE fc inout iter total { s with mem := mb }).2.mem j) ∧
    (fc.elements ≤ MAX_SIZE → lib.supported fc.elements = true →
      (kernel lib MAX_SIZE fc inout iter total { s with mem := ma }).1 = .returned 0 ∧
      (kernel lib MAX_SIZE fc inout iter total { s with mem := mb }).1 = .returned 0 ∧
      (kernel lib MAX_SIZE fc inout iter total { s with mem := mab }).1 = .returned 0) := by
  refine ⟨?_, ?_⟩
  · intro j hj
    rcases kernel_runs_or_aborts lib MAX_SIZE fc inout iter total s hinv hsz hn with h | h
    · obtain ⟨_, _, _, _, hda, _, _, _⟩ := kernel_compute_spec fc inout
        ({ s with fft := some ⟨fc.elements, lib.twiddle fc.elements⟩,
                  current_size := fc.elements, mem := ma } : KernelState K)
        (lib.twiddle fc.elements) rfl
      obtain ⟨_, _, _, _, hdb, _, _, _⟩ := kernel_compute_spec fc inout
        ({ s with fft := some ⟨fc.elements, lib.twiddle fc.elements⟩,
                  current_size := fc.elements, mem := mb } : KernelState K)
        (lib.twiddle fc.elements) rfl
      obtain ⟨_, _, _, _, hdab, _, _, _⟩ := kernel_compute_spec fc inout
        ({ s with fft := some ⟨fc.elements, lib.twiddle fc.elements⟩,
                  current_size := fc.elements, mem := mab } : KernelState K)
        (lib.twiddle fc.elements) rfl
      have hcu : ∀ (m : Mem K),
          (∀ i, i < fc.elements → coeff_in fc inout m i = coeff_in fc inout mab i) →
          ∀ i, i < fc.elements →
            coeff_used (lib.twiddle fc.elements) fc inout m i
              = coeff_used (lib.twiddle fc.elements) fc inout mab i := by
        intro m hm i hi
        unfold coeff_used
        split
        · exact dft_congr _ _ _ _ hm i
        · exact hm i hi
      rw [h ma, h mb, h mab, hda j hj, hdb j hj, hdab j hj, ← rscale_add, ← dft_add]
      congr 1
      apply dft_congr
      intro i hi
      simp only
      rw [hcu ma hka i hi, hcu mb hkb i hi, ← mul_add]
      congr 1
      rw [← dft_add]
      exact dft_congr _ _ _ _ hsum i
    · rw [(h.2 ma).2, (h.2 mb).2, (h.2 mab).2]
      exact hsum j hj
  · intro hmax hsup
    exact ⟨(kernel_spec lib MAX_SIZE fc inout iter total { s with mem := ma } hinv hsz hn hmax
        hsup).1,
      (kernel_spec lib MAX_SIZE fc inout iter total { s with mem := mb } hinv hsz hn hmax
        hsup).1,
      (kernel_spec lib MAX_SIZE fc inout iter total { s with mem := mab } hinv hsz hn hmax
        hsup).1⟩

/-- C8, worked example: inputs `[1, 2]` and `[10, 20i]` against the kernel
`[1, 1]`, two elements, first call of a run. -/
theorem kernel_linear_witness :
    (kernel cml_rat 4 (request 2 1) 0 0 0 (KernelState.init linear_ab)).1 = .returned 0 ∧
    data_in (request 2 1) 0
        (kernel cml_rat 4 (request 2 1) 0 0 0 (KernelState.init linear_ab)).2.mem 1
      = data_in (request 2 1) 0
          (kernel cml_rat 4 (request 2 1) 0 0 0 (KernelState.init linear_a)).2.mem 1
        + data_in (request 2 1) 0
          (kernel cml_rat 4 (request 2 1) 0 0 0 (KernelState.init linear_b)).2.mem 1 := by
  have h := kernel_linear cml_rat 4 (request 2 1) 0 0 0 (KernelState.init linear_ab)
    linear_a linear_b linear_ab (by decide) (CacheInv_init _ _) (Or.inl rfl)
    (by
      intro j hj
      have hj2 : j < 2 := hj
      interval_cases j <;> simp [coeff_in, zload, request, linear_a, linear_ab])
    (by
      intro j hj
      have hj2 : j < 2 := hj
      interval_cases j <;> simp [coeff_in, zload, request, linear_b, linear_ab])
    (by
      intro j hj
      have hj2 : j < 2 := hj
      interval_cases j
      · simp [data_in, zload, request, linear_a, linear_b, linear_ab, Cplx.ext_iff]
        norm_num
      · simp [data_in, zload, request, linear_a, linear_b, linear_ab, Cplx.ext_iff])
  exact ⟨(h.2 (by decide) (by decide)).2.2, h.1 1 (by decide)⟩

/-- C9, counterexample: with the input-real plane at `2^64 - 4`, iteration 1
and stride 1, the first entry declared by `input` has address 0, not
`ea_input_re + iter*input_stride*4 = 2^64`: the sum wraps in the 64-bit
address type. -/
theorem input_address_wraps :
    ((input dtl_recorder wrap_request dtl_empty 1 1).2.entries.map dtl_entry.ea).head? = some 0 ∧
    wrap_request.ea_input_re + 1 * wrap_request.input_stride * 4 = 2 ^ 64 := by
  decide

/-- C9 (amended): whenever no offset `iter*stride*4` reaches `2^32` and no sum
`base + iter*stride*4` reaches `2^64`, `input` declares exactly four entries,
in the order input-real, input-imag, kernel-real, kernel-imag, and `output`
exactly two, output-real then output-imag, each of `elements` floats at
`base + iter*stride*4`; both return 0, and the list does not depend on `total`
or on the previous contents of the list handle. -/
theorem input_output_entries (fc : Fastconv_split_params) (entries : dtl)
    (iter total : Nat)
    (hi : iter * fc.input_stride * 4 < 2 ^ 32)
    (hk : iter * fc.kernel_stride * 4 < 2 ^ 32)
    (ho : iter * fc.output_stride * 4 < 2 ^ 32)
    (hire : fc.ea_input_re + iter * fc.input_stride * 4 < 2 ^ 64)
    (hiim : fc.ea_input_im + iter * fc.input_stride * 4 < 2 ^ 64)
    (hkre : fc.ea_kernel_re + iter * fc.kernel_stride * 4 < 2 ^ 64)
    (hkim : fc.ea_kernel_im + iter * fc.kernel_stride * 4 < 2 ^ 64)
    (hore : fc.ea_output_re + iter * fc.output_stride * 4 < 2 ^ 64)
    (hoim : fc.ea_output_im + iter * fc.output_stride * 4 < 2 ^ 64) :
    input dtl_recorder fc entries iter total
      = (0, ⟨.ALF_BUF_OVL_IN, 0,
          [⟨fc.elements, .ALF_DATA_FLOAT, fc.ea_input_re + iter * fc.input_stride * 4⟩,
           ⟨fc.elements, .ALF_DATA_FLOAT, fc.ea_input_im + iter * fc.input_stride * 4⟩,
           ⟨fc.elements, .ALF_DATA_FLOAT, fc.ea_kernel_re + iter * fc.kernel_stride * 4⟩,
           ⟨fc.elements, .ALF_DATA_FLOAT, fc.ea_kernel_im + iter * fc.kernel_stride * 4⟩],
          true⟩) ∧
    output dtl_recorder fc entries iter total
      = (0, ⟨.ALF_BUF_OVL_OUT, 0,
          [⟨fc.elements, .ALF_DATA_FLOAT, fc.ea_output_re + iter * fc.output_stride * 4⟩,
           ⟨fc.elements, .ALF_DATA_FLOAT, fc.ea_output_im + iter * fc.output_stride * 4⟩],
          true⟩) := by
  simp only [input, output, dtl_recorder, plane_ea_exact _ _ _ hi hire,
    plane_ea_exact _ _ _ hi hiim, plane_ea_exact _ _ _ hk hkre, plane_ea_exact _ _ _ hk hkim,
    plane_ea_exact _ _ _ ho hore, plane_ea_exact _ _ _ ho hoim, List.nil_append,
    List.cons_append, and_self]

/-- C9 (amended), worked example: iteration 3 of a four-element request. -/
theorem input_output_entries_witness :
    input dtl_recorder (request 4 1) dtl_empty 3 7
      = (0, ⟨.ALF_BUF_OVL_IN, 0,
          [⟨4, .ALF_DATA_FLOAT, 0x3030⟩, ⟨4, .ALF_DATA_FLOAT, 0x4030⟩,
           ⟨4, .ALF_DATA_FLOAT, 0x1030⟩, ⟨4, .ALF_DATA_FLOAT, 0x2030⟩], true⟩) ∧
    output dtl_recorder (request 4 1) dtl_empty 3 7
      = (0, ⟨.ALF_BUF_OVL_OUT, 0,
          [⟨4, .ALF_DATA_FLOAT, 0x5030⟩, ⟨4, .ALF_DATA_FLOAT, 0x6030⟩], true⟩) :=
  input_output_entries (request 4 1) dtl_empty 3 7 (by decide) (by decide) (by decide)
    (by decide) (by decide) (by decide) (by decide) (by decide) (by decide)

/-- C10: `kernel` rebuilds the plan and records `elements` as the current size
exactly when the iteration index is 0 and `elements` differs from the recorded
current size (the size assertion passing and plan construction succeeding); in
every other call the statics (current size, plan, instance id) are after the
call what they were before it. -/
theorem kernel_plan_cache_frame (lib : CML K) (MAX_SIZE : Nat)
    (fc : Fastconv_split_params) (inout iter total : Nat) (s : KernelState K) :
    (iter = 0 ∧ fc.elements ≠ s.current_size → fc.elements ≤ MAX_SIZE →
      lib.supported fc.elements = true →
      (kernel lib MAX_SIZE fc inout iter total s).2.current_size = fc.elements ∧
      (kernel lib MAX_SIZE fc inout iter total s).2.fft
        = (cml_fft1d_setup_f lib fc.elements).2 ∧
      (kernel lib MAX_SIZE fc inout iter total s).2.fft
        = some ⟨fc.elements, lib.twiddle fc.elements⟩) ∧
    (¬ (iter = 0 ∧ fc.elements ≠ s.current_size) →
      (kernel lib MAX_SIZE fc inout iter total s).2.current_size = s.current_size ∧
      (kernel lib MAX_SIZE fc inout iter total s).2.fft = s.fft ∧
      (kernel lib MAX_SIZE fc inout iter total s).2.instance_id = s.instance_id) ∧
    (fc.elements ≤ MAX_SIZE → lib.supported fc.elements = true →
      ((kernel lib MAX_SIZE fc inout iter total s).2.current_size ≠ s.current_size ↔
        (iter = 0 ∧ fc.elements ≠ s.current_size))) := by
  have hA : iter = 0 ∧ fc.elements ≠ s.current_size → fc.elements ≤ MAX_SIZE →
      lib.supported fc.elements = true →
      (kernel lib MAX_SIZE fc inout iter total s).2.current_size = fc.elements ∧
      (kernel lib MAX_SIZE fc inout iter total s).2.fft
        = some ⟨fc.elements, lib.twiddle fc.elements⟩ := by
    intro hc hmax hsup
    unfold kernel
    simp only [hmax, not_true_eq_false, if_false, if_pos hc, cml_fft1d_setup_f, hsup, if_true,
      ne_eq, one_ne_zero, not_false_eq_true, Option.isSome_some, and_self]
    obtain ⟨_, h2, h3⟩ := kernel_compute_statics fc inout
      ({ s with fft := some ⟨fc.elements, lib.twiddle fc.elements⟩,
                current_size := fc.elements } : KernelState K)
    exact ⟨h2, h3⟩
  have hB : ¬ (iter = 0 ∧ fc.elements ≠ s.current_size) →
      (kernel lib MAX_SIZE fc inout iter total s).2.current_size = s.current_size ∧
      (kernel lib MAX_SIZE fc inout iter total s).2.fft = s.fft ∧
      (kernel lib MAX_SIZE fc inout iter total s).2.instance_id = s.instance_id := by
    intro hc
    unfold kernel
    by_cases hmax : fc.elements ≤ MAX_SIZE
    · simp only [hmax, not_true_eq_false, if_false, if_neg hc]
      obtain ⟨h1, h2, h3⟩ := kernel_compute_statics fc inout s
      exact ⟨h2, h3, h1⟩
    · simp only [hmax, not_false_eq_true, if_true, and_self]
  refine ⟨?_, hB, ?_⟩
  · intro hc hmax hsup
    refine ⟨(hA hc hmax hsup).1, ?_, (hA hc hmax hsup).2⟩
    rw [(hA hc hmax hsup).2]
    simp [cml_fft1d_setup_f, hsup]
  · intro hmax hsup
    constructor
    · intro hne
      by_contra hc
      exact hne (hB hc).1
    · intro hc
      rw [(hA hc hmax hsup).1]
      exact hc.2

/-- C10, worked example: from a cache holding the plan for two elements, an
iteration-0 call with four elements rebuilds for four, while an iteration-1
call with four elements leaves the cache at two. -/
theorem kernel_plan_cache_frame_witness :
    (kernel cml_rat 4 (request 4 1) 0 0 0
      (kernel cml_rat 4 (request 2 1) 0 0 0 (KernelState.init identity_buffer)).2).2.current_size
      = 4 ∧
    (kernel cml_rat 4 (request 4 1) 0 1 0
      (kernel cml_rat 4 (request 2 1) 0 0 0 (KernelState.init identity_buffer)).2).2.current_size
      = (kernel cml_rat 4 (request 2 1) 0 0 0
          (KernelState.init identity_buffer)).2.current_size :=
  ⟨((kernel_plan_cache_frame cml_rat 4 (request 4 1) 0 0 0
      (kernel cml_rat 4 (request 2 1) 0 0 0 (KernelState.init identity_buffer)).2).1
        ⟨rfl, by decide⟩ (by decide) (by decide)).1,
   ((kernel_plan_cache_frame cml_rat 4 (request 4 1) 0 1 0
      (kernel cml_rat 4 (request 2 1) 0 0 0 (KernelState.init identity_buffer)).2).2.1
        (by decide)).1⟩

end Fconv
